import Mathlib

/-!
Verification of the `modify_svg.py` SVG rewriting tool.

The program is a single linear pipeline over an in-memory XML tree:
style-block management (`update_svg_style`), per-element attribute
normalisation and colour-to-class rewriting (`replace_color` with its
inner `modify_style_attribute`), and marker class propagation
(`deal_with_markers`), plus the configuration loaders
(`load_theme_colors`, `load_color_mapping`).

Strings are embedded as `List Char`.  Python regular expressions are
embedded as explicit deterministic matchers specialised to the concrete
patterns appearing in the source.  Python dictionaries are embedded as
association lists in insertion order (`dictUpd` models `dict.update`,
lookup is first-match, which agrees with dictionaries since keys are
unique).  Fatal runtime errors (uncaught Python exceptions) are
embedded as `none` / `Except.error`.
-/

/-! ## Character classes used by the regexes in `update_svg_style` -/

/-- Characters matched by `[a-zA-Z0-9]` (the `color_name` group). -/
def isCssAlnum (c : Char) : Bool :=
  ('a' ≤ c && c ≤ 'z') || ('A' ≤ c && c ≤ 'Z') || ('0' ≤ c && c ≤ '9')

/-- Characters matched by `[a-fA-F0-9]` (hex digits). -/
def isHexDig (c : Char) : Bool :=
  ('a' ≤ c && c ≤ 'f') || ('A' ≤ c && c ≤ 'F') || ('0' ≤ c && c ≤ '9')

/-- The characters of `"fill"`. -/
def fillCs : List Char := ['f', 'i', 'l', 'l']

/-- The characters of `"stroke"`. -/
def strokeCs : List Char := ['s', 't', 'r', 'o', 'k', 'e']

/-! ## Primitive matchers over `List Char`

These model the atomic pieces of the regular expressions: a literal
string, a single `.` (any character except newline, Python default),
and a greedy one-or-more character-class repetition. Each primitive
consumes a prefix of the input and returns the remaining suffix. -/

/-- Match a literal sequence of characters; return the rest. -/
def pLit : List Char → List Char → Option (List Char)
  | [], l => some l
  | _ :: _, [] => none
  | p :: ps, c :: cs => if c = p then pLit ps cs else none

/-- Match `.` (any single character except `'\n'`); return the rest. -/
def pAny : List Char → Option (List Char)
  | [] => none
  | c :: cs => if c = '\n' then none else some cs

/-- Greedily take characters satisfying `f`; return (taken, rest). -/
def munchP (f : Char → Bool) : List Char → List Char × List Char
  | [] => ([], [])
  | c :: cs =>
    if f c then
      let r := munchP f cs
      (c :: r.1, r.2)
    else ([], c :: cs)

/-- Match a single hex digit; return the rest. -/
def pHex1 : List Char → Option (List Char)
  | c :: r => if isHexDig c then some r else none
  | [] => none

/-- Match `[a-fA-F0-9]{3}` (exactly three hex digits); return the rest. -/
def pHex3 (l : List Char) : Option (List Char) :=
  match pHex1 l with
  | none => none
  | some l1 =>
    match pHex1 l1 with
    | none => none
    | some l2 => pHex1 l2

/-! ## The CSS-rule regex of `update_svg_style`

Source pattern (a raw string in the Python source):

`.(?P<rule_type>(fill|stroke))-(?P<color_name>[a-zA-Z0-9]+) {(\1):#(?P<color>[a-fA-F0-9]{3}([a-fA-F0-9]{3})?);}`

The leading `.` is "any char except newline"; `{` and `}` are literal
braces; `(\1)` is a back-reference to the rule type.  Backtracking is
resolved deterministically: the alternation `fill|stroke` is decided by
the first character, the greedy `[a-zA-Z0-9]+` by maximal munch (the
following ` {` cannot start with an alphanumeric character), and the
greedy optional hex triple by trying the six-digit form first. -/

/-- Match the part of the CSS-rule pattern after the rule type:
`-<name> {<rt>:#<hex3>(<hex3>)?;}`.  Returns (name, rest). -/
def cssTail (rt : List Char) (l : List Char) : Option (List Char × List Char) :=
  match pLit ['-'] l with
  | none => none
  | some l1 =>
    match munchP isCssAlnum l1 with
    | ([], _) => none
    | (nm, l2) =>
      match pLit [' ', '\x7b'] l2 with
      | none => none
      | some l3 =>
        match pLit rt l3 with
        | none => none
        | some l4 =>
          match pLit [':', '#'] l4 with
          | none => none
          | some l5 =>
            match pHex3 l5 with
            | none => none
            | some l6 =>
              match pHex3 l6 with
              | some l7 =>
                match pLit [';', '\x7d'] l7 with
                | some l8 => some (nm, l8)
                | none => (pLit [';', '\x7d'] l6).map (fun r => (nm, r))
              | none => (pLit [';', '\x7d'] l6).map (fun r => (nm, r))

/-- Try to match the whole CSS-rule pattern at the head of `l`.
Returns (rule type, colour name, rest after the match). -/
def cssMatchAt (l : List Char) : Option (List Char × List Char × List Char) :=
  match pAny l with
  | none => none
  | some l0 =>
    match pLit fillCs l0 with
    | some l1 => (cssTail fillCs l1).map (fun p => (fillCs, p.1, p.2))
    | none =>
      match pLit strokeCs l0 with
      | some l1 => (cssTail strokeCs l1).map (fun p => (strokeCs, p.1, p.2))
      | none => none

/-- Fuelled scanner modelling `re.finditer` for the CSS-rule pattern:
try a match at every position, left to right, non-overlapping. -/
def cssScanF : Nat → List Char → List (List Char × List Char)
  | 0, _ => []
  | _ + 1, [] => []
  | n + 1, c :: cs =>
    match cssMatchAt (c :: cs) with
    | some (rt, nm, r) => (rt, nm) :: cssScanF n r
    | none => cssScanF n cs

/-- All matches of the CSS-rule pattern in `l` (rule type, colour name),
in order, as found by `re.finditer`. -/
def cssScan (l : List Char) : List (List Char × List Char) :=
  cssScanF l.length l

/-! ## The broken substitution pattern of `update_svg_style`

The `re.sub` pattern in the source is an f-string, not a raw string:

`f".{rule_type}-{color_name} {{\1:#([a-fA-F0-9]{3}([a-fA-F0-9]{3})?);}}"`

Python string-literal processing turns `\1` into the control character
U+0001 and the f-string replacement fields `{3}` into the literal digit
`3`, so the compiled regex is

`.<rt>-<name> {\x01:#([a-fA-F0-9]3([a-fA-F0-9]3)?);}`

which requires a literal U+0001 after the brace and a literal `3` after
each hex digit. -/

/-- Try to match the (mangled) substitution pattern at the head of `l`. -/
def brokenMatchAt (rt nm : List Char) (l : List Char) : Option (List Char) :=
  match pAny l with
  | none => none
  | some l0 =>
    match pLit (rt ++ '-' :: nm ++ [' ', '\x7b', '\x01', ':', '#']) l0 with
    | none => none
    | some l1 =>
      match pHex1 l1 with
      | none => none
      | some l2 =>
        match pLit ['3'] l2 with
        | none => none
        | some l3 =>
          match (do
            let l4 ← pHex1 l3
            let l5 ← pLit ['3'] l4
            pLit [';', '\x7d'] l5 : Option (List Char)) with
          | some r => some r
          | none => pLit [';', '\x7d'] l3

/-- Fuelled global substitution modelling `re.sub` with the mangled
pattern: scan left to right, replace each non-overlapping match. -/
def subBrokenF (rt nm repl : List Char) : Nat → List Char → List Char
  | 0, l => l
  | _ + 1, [] => []
  | n + 1, c :: cs =>
    match brokenMatchAt rt nm (c :: cs) with
    | some r => repl ++ subBrokenF rt nm repl n r
    | none => c :: subBrokenF rt nm repl n cs

/-- Global substitution of the mangled pattern (`re.sub`). -/
def subBroken (rt nm repl l : List Char) : List Char :=
  subBrokenF rt nm repl l.length l

/-! ## `update_svg_style` on the style text -/

/-- Dictionary lookup (`new_colors[color_name]` / `in` test). -/
def themeLookup (d : List (List Char × List Char)) (k : List Char) : Option (List Char) :=
  (d.find? (fun p => p.1 = k)).map (fun p => p.2)

/-- The replacement text `f".{rule_type}-{color_name} {{{rule_type}:{new_color};}}"`. -/
def cssReplacement (rt nm v : List Char) : List Char :=
  '.' :: rt ++ '-' :: nm ++ [' ', '\x7b'] ++ rt ++ ':' :: v ++ [';', '\x7d']

/-- The appended rule line
`f"\n        .{rt}-{color_name} {{{rt}:{color_value};}}"`. -/
def newRuleLine (rt nm v : List Char) : List Char :=
  '\n' :: [' ', ' ', ' ', ' ', ' ', ' ', ' ', ' '] ++ cssReplacement rt nm v

/-- The colour names of the scanned rules that are keys of `new_colors`
(the `updated_colors` set, as a list). -/
def updatedColors (new_colors : List (List Char × List Char))
    (rules : List (List Char × List Char)) : List (List Char) :=
  rules.filterMap (fun ru => if (themeLookup new_colors ru.2).isSome then some ru.2 else none)

/-- The body of `update_svg_style`, acting on the style element's text.
First loop: for every `finditer` match whose colour name is a theme key,
run the (mangled, hence ineffective) `re.sub` and record the name.
Second loop: append a fill and a stroke rule for every theme colour not
recorded. -/
def update_svg_style (new_colors : List (List Char × List Char))
    (style_content : List Char) : List Char :=
  let rules := cssScan style_content
  let s1 := rules.foldl (fun acc ru =>
    match themeLookup new_colors ru.2 with
    | some v => subBroken ru.1 ru.2 (cssReplacement ru.1 ru.2 v) acc
    | none => acc) style_content
  let upd := updatedColors new_colors rules
  new_colors.foldl (fun acc p =>
    if upd.contains p.1 then acc
    else acc ++ newRuleLine fillCs p.1 p.2 ++ newRuleLine strokeCs p.1 p.2) s1

/-! ## Configuration loaders (`load_theme_colors`, `load_color_mapping`)

The ini files are external collaborators; we model their parsed content
abstractly: `themes.ini` as a list of sections, each a list of
(colour-name, bare-hex-value) items, and the `[color.mapping]` section
of `color_mapping.ini` as a base association list. -/

/-- Dictionary write: replace the value of an existing key in place,
else append (Python `dict` update semantics for a single key). -/
def dictSet : List (List Char × List Char) → List Char → List Char →
    List (List Char × List Char)
  | [], k, v => [(k, v)]
  | p :: rest, k, v => if p.1 = k then (k, v) :: rest else p :: dictSet rest k v

/-- Python `dict.update` with the given entries, in order. -/
def dictUpd (d : List (List Char × List Char)) (entries : List (List Char × List Char)) :
    List (List Char × List Char) :=
  entries.foldl (fun acc e => dictSet acc e.1 e.2) d

/-- `load_theme_colors(theme)` for a selected theme: fails if the theme
section is absent, else prefixes every value with `#`. -/
def load_theme_colors_some (cfg : List (List Char × List (List Char × List Char)))
    (theme : List Char) : Option (List (List Char × List Char)) :=
  match cfg.find? (fun p => p.1 = theme) with
  | none => none
  | some p => some (p.2.map (fun kv => (kv.1, '#' :: kv.2)))

/-- `load_theme_colors(None)`: every theme's colours, each value
prefixed with `#`. -/
def load_theme_colors_all (cfg : List (List Char × List (List Char × List Char))) :
    List (List Char × List (List Char × List Char)) :=
  cfg.map (fun p => (p.1, p.2.map (fun kv => (kv.1, '#' :: kv.2))))

/-- `load_color_mapping()`: the static base mapping updated, for every
theme, with `{f"#{value}": key}` — note `value` is already
`#`-prefixed by `load_theme_colors`, so the written key starts `##`. -/
def load_color_mapping (base : List (List Char × List Char))
    (cfg : List (List Char × List (List Char × List Char))) :
    List (List Char × List Char) :=
  (load_theme_colors_all cfg).foldl
    (fun cm t => dictUpd cm (t.2.map (fun kv => ('#' :: kv.2, kv.1)))) base

/-- Explicit decomposition of the input corresponding to a successful
`cssTail` match: `-<nm> {<rt>:#<hex>;}<r>` with `nm` nonempty
alphanumeric and `hex` three or six hex digits. -/
def CssTailShape (rt l nm r : List Char) : Prop :=
  nm ≠ [] ∧ (∀ c ∈ nm, isCssAlnum c = true) ∧
  ∃ hex : List Char, (hex.length = 3 ∨ hex.length = 6) ∧ (∀ c ∈ hex, isHexDig c = true) ∧
    l = '-' :: (nm ++ [' ', '\x7b'] ++ rt ++ [':', '#'] ++ hex ++ [';', '\x7d'] ++ r)

/-- Explicit decomposition corresponding to a successful `cssMatchAt`. -/
def CssMatchShape (rt l nm r : List Char) : Prop :=
  (rt = fillCs ∨ rt = strokeCs) ∧
  ∃ c tl, ¬ c = '\n' ∧ l = c :: (rt ++ tl) ∧ CssTailShape rt tl nm r

/-- The two rule lines appended for one missing theme colour. -/
def ruleLines (p : List Char × List Char) : List Char :=
  newRuleLine fillCs p.1 p.2 ++ newRuleLine strokeCs p.1 p.2

/-- Well-formedness of one theme entry: nonempty alphanumeric name and
a `#`-prefixed three- or six-digit hex value. -/
def WfThemeEntry (p : List Char × List Char) : Prop :=
  p.1 ≠ [] ∧ (∀ c ∈ p.1, isCssAlnum c = true) ∧
  ∃ hex : List Char, p.2 = '#' :: hex ∧ (hex.length = 3 ∨ hex.length = 6) ∧
    ∀ c ∈ hex, isHexDig c = true

/-- The theme colours whose names were not found among the scanned rules
(those for which new rule lines get appended). -/
def missingColors (new_colors : List (List Char × List Char)) (s : List Char) :
    List (List Char × List Char) :=
  new_colors.filter (fun p => !((updatedColors new_colors (cssScan s)).contains p.1))

/-! ## Per-element processing: `replace_color` and `modify_style_attribute`

Elements are embedded as their attribute lists in document order
(lxml's `attrib`); `set` replaces an existing attribute's value in
place or appends a new one, `del` removes it.  Python's `str.strip`,
`str.split` and `str.join` are modelled directly. -/

/-- Whitespace stripped by Python `str.strip()` (ASCII part). -/
def isPySpace (c : Char) : Bool :=
  c = ' ' || c = '\t' || c = '\n' || c = '\r' || c = '\x0b' || c = '\x0c'

/-- Python `str.strip()`. -/
def pyStrip (l : List Char) : List Char :=
  ((l.dropWhile isPySpace).reverse.dropWhile isPySpace).reverse

/-- Python `str.split(sep)` for a one-character separator: the pieces
between occurrences of `sep`, empties included. -/
def splitOnChar (sep : Char) : List Char → List (List Char)
  | [] => [[]]
  | c :: cs =>
    match splitOnChar sep cs with
    | [] => [[]]
    | r :: rs => if c = sep then [] :: r :: rs else (c :: r) :: rs

/-- Python `sep.join(parts)` for a one-character separator. -/
def joinSep (sep : Char) : List (List Char) → List Char
  | [] => []
  | [t] => t
  | t :: ts => t ++ sep :: joinSep sep ts

/-- The transient per-element fill/stroke state (the Python `Attribute`
class: `is_set` flag and optional value). -/
structure PAttr where
  is_set : Bool := false
  value : Option (List Char) := none
deriving DecidableEq

/-- An element's attribute list, in document order. -/
abbrev Element := List (List Char × List Char)

/-- `element.attrib[k]` / `element.get(k)`. -/
def getAttr (el : Element) (k : List Char) : Option (List Char) :=
  (el.find? (fun p => p.1 = k)).map (fun p => p.2)

/-- `element.set(k, v)`: replace in place, or append if absent. -/
def setAttr : Element → List Char → List Char → Element
  | [], k, v => [(k, v)]
  | p :: rest, k, v => if p.1 = k then (k, v) :: rest else p :: setAttr rest k v

/-- `del element.attrib[k]`. -/
def delAttr (el : Element) (k : List Char) : Element :=
  el.filter (fun p => !(decide (p.1 = k)))

/-- The characters of `"style"`. -/
def styleK : List Char := ['s', 't', 'y', 'l', 'e']

/-- The characters of `"class"`. -/
def classK : List Char := ['c', 'l', 'a', 's', 's']

/-- The characters of `"none"`. -/
def noneV : List Char := ['n', 'o', 'n', 'e']

/-- One step of the declaration loop in `modify_style_attribute`:
process one `;`-separated piece of the stripped style string.  The
state is (updated_style pieces, fill state, stroke state); a piece that
does not split on `:` into exactly two parts raises `ValueError`
(modelled as `none`). -/
def styleDeclStep (color_mapping : List (List Char × List Char))
    (st : List (List Char) × PAttr × PAttr) (piece : List Char) :
    Option (List (List Char) × PAttr × PAttr) :=
  match splitOnChar ':' piece with
  | [a, v] =>
    let a' := pyStrip a
    let v' := pyStrip v
    if a' = fillCs ∧ (themeLookup color_mapping v').isSome then
      some (st.1,
        { is_set := true, value := if v' = noneV then st.2.1.value else some v' },
        st.2.2)
    else if a' = strokeCs ∧ (themeLookup color_mapping v').isSome then
      some (st.1, st.2.1,
        { is_set := true, value := if v' = noneV then st.2.2.value else some v' })
    else
      some (st.1 ++ [piece], st.2.1, st.2.2)
  | _ => none

/-- `modify_style_attribute(style_attr, fill_attr, stroke_attr)`:
strip; empty means return `""` untouched; otherwise fold the
`;`-separated declarations, rebuilding the style string from the
non-colour declarations.  `none` models the fatal `ValueError`. -/
def modify_style_attribute (color_mapping : List (List Char × List Char))
    (style_attr : List Char) : Option (List Char × PAttr × PAttr) :=
  let sa := pyStrip style_attr
  if sa = [] then some ([], {}, {})
  else
    ((splitOnChar ';' sa).foldlM (styleDeclStep color_mapping) ([], {}, {})).map
      (fun st => (joinSep ';' st.1, st.2.1, st.2.2))

/-- Resolution phase of the per-element loop in `replace_color`:
process the `style` attribute (writing the rebuilt string back, even
when empty), then fall back to the plain `fill`/`stroke` attributes
when the style attribute did not set the corresponding state. -/
def resolveStyle (color_mapping : List (List Char × List Char)) (el : Element) :
    Option (Element × PAttr × PAttr) :=
  match getAttr el styleK with
  | some sa =>
    match modify_style_attribute color_mapping sa with
    | none => none
    | some r => some (setAttr el styleK r.1, r.2.1, r.2.2)
  | none => some (el, {}, {})

/-- Resolution phase continued: after the style attribute, consult the
plain `fill`/`stroke` attributes when the style did not set the
corresponding state. -/
def resolveElement (color_mapping : List (List Char × List Char)) (el : Element) :
    Option (Element × PAttr × PAttr) :=
  match resolveStyle color_mapping el with
  | none => none
  | some (el1, f1, s1) =>
    let f2 := if (getAttr el1 fillCs).isSome ∧ f1.is_set = false then
        ({ is_set := true, value := getAttr el1 fillCs } : PAttr) else f1
    let s2 := if (getAttr el1 strokeCs).isSome ∧ s1.is_set = false then
        ({ is_set := true, value := getAttr el1 strokeCs } : PAttr) else s1
    some (el1, f2, s2)

/-- Membership-based set insertion (Python `set.add`), in one fixed
order; Python's set iteration order is unspecified and every claimed
property is order-independent. -/
def setAdd (l : List (List Char)) (x : List Char) : List (List Char) :=
  if x ∈ l then l else l ++ [x]

/-- Deduplicate keeping first occurrences (a Python `set` built from a
list, in the model's fixed order). -/
def setList (l : List (List Char)) : List (List Char) :=
  l.foldl setAdd []

/-- Python `set(c.strip() for c in classes.split(" "))`. -/
def pyClassSet (c : List Char) : List (List Char) :=
  setList ((splitOnChar ' ' c).map pyStrip)

/-- Python `" ".join(classes).strip()` under the model's set order. -/
def joinClasses (l : List (List Char)) : List Char :=
  pyStrip (joinSep ' ' l)

/-- The test-and-lookup `attr.is_set and attr.value in color_mapping`
followed by `color_mapping[attr.value]`: the mapped class-name suffix,
when the state is set and its value is a mapping key. -/
def attrLook (color_mapping : List (List Char × List Char)) (a : PAttr) :
    Option (List Char) :=
  if a.is_set then a.value.bind (themeLookup color_mapping) else none

/-- Classification phase of the per-element loop: build the class set,
add `fill-`/`stroke-` classes for colours found in the mapping, delete
the matched plain attributes, and write the `class` attribute only when
the set is nonempty. -/
def classifyElement (color_mapping : List (List Char × List Char))
    (el1 : Element) (f s : PAttr) : Element :=
  let classes0 := match getAttr el1 classK with
    | none => []
    | some c => pyClassSet c
  let step1 := match attrLook color_mapping f with
    | some m => (setAdd classes0 (fillCs ++ '-' :: m),
        if (getAttr el1 fillCs).isSome then delAttr el1 fillCs else el1)
    | none => (classes0, el1)
  let step2 := match attrLook color_mapping s with
    | some m => (setAdd step1.1 (strokeCs ++ '-' :: m),
        if (getAttr step1.2 strokeCs).isSome then delAttr step1.2 strokeCs else step1.2)
    | none => step1
  if step2.1 ≠ [] then setAttr step2.2 classK (joinClasses step2.1) else step2.2

/-- The per-element body of `replace_color` (resolution followed by
classification); `none` models an uncaught exception. -/
def processElement (color_mapping : List (List Char × List Char)) (el : Element) :
    Option Element :=
  (resolveElement color_mapping el).map (fun r => classifyElement color_mapping r.1 r.2.1 r.2.2)

/-! ## Class-token well-formedness and the join/split round trip -/

/-- A well-formed class token: nonempty, no whitespace characters. -/
def WfTok (t : List Char) : Prop :=
  t ≠ [] ∧ ∀ c ∈ t, isPySpace c = false

/-- The class set computed by the classification phase. -/
def classesOf (cm : List (List Char × List Char)) (el1 : Element) (f s : PAttr) :
    List (List Char) :=
  let classes0 := match getAttr el1 classK with
    | none => []
    | some c => pyClassSet c
  let c1 := match attrLook cm f with
    | some m => setAdd classes0 (fillCs ++ '-' :: m)
    | none => classes0
  match attrLook cm s with
  | some m => setAdd c1 (strokeCs ++ '-' :: m)
  | none => c1

/-! ## `deal_with_markers`: marker propagation

The tree is embedded as the list of its elements in document order,
index 0 being the root; `root.iter()` visits every index and
`root.find(".//*[@id=...])` searches the strict descendants, indices
1 and up. -/

def idK : List Char := ['i', 'd']

/-- Scan for the first element with the given `id` attribute, indices
counted from `k`. -/
def findIdAux (element_id : List Char) : List Element → Nat → Option Nat
  | [], _ => none
  | e :: es, k =>
    if getAttr e idK = some element_id then some k else findIdAux element_id es (k + 1)

/-- `find_element_with_id`: index of the first strict descendant whose
`id` attribute equals the given id, if any. -/
def find_element_with_id (tree : List Element) (element_id : List Char) : Option Nat :=
  match tree with
  | [] => none
  | _ :: rest => findIdAux element_id rest 1

/-- Group 2 of `marker-(start|end|mid):url\(#(?P<marker_id>.*)\)` under
`re.match`: the greedy `.*` cannot cross a newline and backtracks to
the last `)` of the first line; anything may follow the match. -/
def markerBody (u : List Char) : Option (List Char) :=
  match (u.takeWhile (fun c => c ≠ '\n')).reverse.dropWhile (fun c => c ≠ ')') with
  | [] => none
  | _ :: t => some t.reverse

/-- `regex.match(style.strip())` for the marker pattern, on an already
stripped declaration piece: the extracted `marker_id`, if the piece
matches. -/
def markerDeclParse (s : List Char) : Option (List Char) :=
  match pLit (['m', 'a', 'r', 'k', 'e', 'r', '-']) s with
  | none => none
  | some u1 =>
    match (match pLit (['s', 't', 'a', 'r', 't']) u1 with
      | some u => some u
      | none =>
        match pLit (['e', 'n', 'd']) u1 with
        | some u => some u
        | none => pLit (['m', 'i', 'd']) u1) with
    | none => none
    | some u2 =>
      match pLit ([':', 'u', 'r', 'l', '(', '#']) u2 with
      | none => none
      | some u3 => markerBody u3

/-- `[c for c in classes.split(" ") if c.startswith('fill') or
c.startswith('stroke')]` (note: the tokens are not stripped here). -/
def contributedClasses (c : List Char) : List (List Char) :=
  (splitOnChar ' ' c).filter (fun t => fillCs.isPrefixOf t || strokeCs.isPrefixOf t)

/-- The marker element's class set as read by `deal_with_markers`:
empty when the attribute is absent, else the set of stripped
space-split tokens. -/
def markerClassSetAt (tree : List Element) (idx : Nat) : List (List Char) :=
  match getAttr (tree.getD idx []) classK with
  | none => []
  | some mc => pyClassSet mc

/-- The body run for one style declaration piece of element `i`: parse
the marker reference, skip unless the element has a class attribute,
look the target up (`none` models the `AttributeError` on a missing
target), union the contributed classes in, apply `force_fill` (`none`
models the `IndexError` when the first contributed token has no `-`),
and write the joined class string back when the set is nonempty. -/
def processDecl (force_fill : Bool) (tree : List Element) (i : Nat)
    (piece : List Char) : Option (List Element) :=
  match markerDeclParse (pyStrip piece) with
  | none => some tree
  | some mid =>
    match getAttr (tree.getD i []) classK with
    | none => some tree
    | some cls =>
      let classes := contributedClasses cls
      match find_element_with_id tree mid with
      | none => none
      | some idx =>
        let mcs1 := classes.foldl setAdd (markerClassSetAt tree idx)
        let step2 : Option (List (List Char)) :=
          if force_fill = true ∧ classes ≠ [] then
            match splitOnChar '-' (classes.headD []) with
            | _ :: color :: _ => some (setAdd mcs1 (fillCs ++ '-' :: color))
            | _ => none
          else some mcs1
        match step2 with
        | none => none
        | some mcs2 =>
          if mcs2 ≠ [] then
            some (tree.set idx
              (setAttr (tree.getD idx []) classK (joinClasses mcs2)))
          else some tree

/-- One element of the `root.iter()` loop: elements without a `style`
attribute are skipped, otherwise every `;`-separated piece is
processed in order. -/
def elementMarkerStep (force_fill : Bool) (tree : List Element) (i : Nat) :
    Option (List Element) :=
  match getAttr (tree.getD i []) styleK with
  | none => some tree
  | some sty => (splitOnChar ';' sty).foldlM (fun tr piece => processDecl force_fill tr i piece) tree

/-- `deal_with_markers(tree, force_fill)` over the embedded tree. -/
def deal_with_markers (tree : List Element) (force_fill : Bool) :
    Option (List Element) :=
  (List.range tree.length).foldlM (fun tr i => elementMarkerStep force_fill tr i) tree

/-- The tree-evolution invariant of the marker pass: lengths agree,
`id` and `style` attributes are untouched, and a present `class`
attribute stays present. -/
def MInv (t0 t : List Element) : Prop :=
  t.length = t0.length ∧
  ∀ j : Nat, getAttr (t.getD j []) idK = getAttr (t0.getD j []) idK ∧
    getAttr (t.getD j []) styleK = getAttr (t0.getD j []) styleK ∧
    ((getAttr (t0.getD j []) classK).isSome = true →
      (getAttr (t.getD j []) classK).isSome = true)

example :
    cssScan ('.' :: fillCs ++ '-' :: ['r', 'e', 'd'] ++ [' ', '\x7b'] ++ fillCs ++
      ':' :: ['#', 'f', 'f', '0', '0', '0', '0'] ++ [';', '\x7d']) =
      [(fillCs, ['r', 'e', 'd'])] := by decide

example :
    update_svg_style [(['r', 'e', 'd'], ['#', 'a', 'b', 'c'])] [] =
      newRuleLine fillCs ['r', 'e', 'd'] ['#', 'a', 'b', 'c'] ++
        newRuleLine strokeCs ['r', 'e', 'd'] ['#', 'a', 'b', 'c'] := by decide

/-- Claim C1, settled as a code bug at a concrete input: for the theme
source with one theme `dark = {red: ff0000}` and an empty base mapping,
the Style-Block Manager writes the hex value `#ff0000` into its
generated rules, but the colour-mapping table's only key is `##ff0000`
(the reverse-derived entry prefixes the already-`#`-prefixed theme value
with another `#`), so looking up `#ff0000` in the table fails, violating
the claimed invariant. -/
theorem c1_style_hex_not_a_mapping_key :
    load_theme_colors_some [(['d', 'a', 'r', 'k'], [(['r', 'e', 'd'], ['f', 'f', '0', '0', '0', '0'])])]
        ['d', 'a', 'r', 'k'] =
      some [(['r', 'e', 'd'], ['#', 'f', 'f', '0', '0', '0', '0'])] ∧
    ['#', 'f', 'f', '0', '0', '0', '0'] <:+:
        update_svg_style [(['r', 'e', 'd'], ['#', 'f', 'f', '0', '0', '0', '0'])] [] ∧
    load_color_mapping []
        [(['d', 'a', 'r', 'k'], [(['r', 'e', 'd'], ['f', 'f', '0', '0', '0', '0'])])] =
      [(['#', '#', 'f', 'f', '0', '0', '0', '0'], ['r', 'e', 'd'])] ∧
    themeLookup
        (load_color_mapping []
          [(['d', 'a', 'r', 'k'], [(['r', 'e', 'd'], ['f', 'f', '0', '0', '0', '0'])])])
        ['#', 'f', 'f', '0', '0', '0', '0'] = none := by
  decide

/-- Claim C2, settled as a code bug at a concrete input: the style text
`.fill-red {fill:#000000;}` with theme `{red: #ff0000}` is matched (so
`red` is marked updated and no rule pair is appended), but the `re.sub`
pattern was mangled by f-string processing and never matches, so the
output is byte-identical to the input: the hex value is NOT rewritten to
`#ff0000` as the claim states. -/
theorem c2_update_svg_style_does_not_rewrite_hex :
    update_svg_style [(['r', 'e', 'd'], ['#', 'f', 'f', '0', '0', '0', '0'])]
        (cssReplacement fillCs ['r', 'e', 'd'] ['#', '0', '0', '0', '0', '0', '0']) =
      cssReplacement fillCs ['r', 'e', 'd'] ['#', '0', '0', '0', '0', '0', '0'] ∧
    cssReplacement fillCs ['r', 'e', 'd'] ['#', '0', '0', '0', '0', '0', '0'] ≠
      cssReplacement fillCs ['r', 'e', 'd'] ['#', 'f', 'f', '0', '0', '0', '0'] := by
  decide

/-- Claim C3, counterexample: with the theme table `{q-x: #ff0000}`
(the colour name contains a `-`, which `[a-zA-Z0-9]+` cannot match) and
an initially empty style text, a second run of the Style-Block Manager
appends a second copy of both rules, so the style text is not
byte-identical after the second run. -/
theorem c3_second_run_not_byte_identical :
    update_svg_style [(['q', '-', 'x'], ['#', 'f', 'f', '0', '0', '0', '0'])]
        (update_svg_style [(['q', '-', 'x'], ['#', 'f', 'f', '0', '0', '0', '0'])] []) ≠
      update_svg_style [(['q', '-', 'x'], ['#', 'f', 'f', '0', '0', '0', '0'])] [] := by
  decide

/-! ## Locality lemmas for the primitive matchers

For the idempotence proof we need that a successful match is unaffected
by text appended after the input (extension), and that a match cannot
reach across a newline, since no piece of the pattern accepts `'\n'`
(retraction). -/

theorem isHexDig_nl : isHexDig '\n' = false := by decide

theorem isCssAlnum_nl : isCssAlnum '\n' = false := by decide

theorem pLit_ext {p xs r : List Char} (h : pLit p xs = some r) (ys : List Char) :
    pLit p (xs ++ ys) = some (r ++ ys) := by
  induction p generalizing xs with
  | nil =>
    simp only [pLit, Option.some.injEq] at h
    subst h; rfl
  | cons q qs ih =>
    cases xs with
    | nil => simp [pLit] at h
    | cons c cs =>
      simp only [pLit, List.cons_append] at h ⊢
      by_cases hc : c = q
      · simp only [if_pos hc] at h ⊢
        exact ih h
      · simp [hc] at h

theorem pAny_ext {xs r : List Char} (h : pAny xs = some r) (ys : List Char) :
    pAny (xs ++ ys) = some (r ++ ys) := by
  cases xs with
  | nil => simp [pAny] at h
  | cons c cs =>
    simp only [pAny, List.cons_append] at h ⊢
    by_cases hc : c = '\n'
    · simp [hc] at h
    · simp only [if_neg hc, Option.some.injEq] at h ⊢
      subst h; rfl

theorem pHex1_ext {xs r : List Char} (h : pHex1 xs = some r) (ys : List Char) :
    pHex1 (xs ++ ys) = some (r ++ ys) := by
  cases xs with
  | nil => simp [pHex1] at h
  | cons c cs =>
    simp only [pHex1, List.cons_append] at h ⊢
    by_cases hc : isHexDig c = true
    · simp only [if_pos hc, Option.some.injEq] at h ⊢
      subst h; rfl
    · simp [hc] at h

theorem pHex3_ext {xs r : List Char} (h : pHex3 xs = some r) (ys : List Char) :
    pHex3 (xs ++ ys) = some (r ++ ys) := by
  unfold pHex3 at h ⊢
  cases h1 : pHex1 xs with
  | none => simp [h1] at h
  | some l1 =>
    simp only [h1] at h
    cases h2 : pHex1 l1 with
    | none => simp [h2] at h
    | some l2 =>
      simp only [h2] at h
      simp [pHex1_ext h1 ys, pHex1_ext h2 ys, pHex1_ext h ys]

theorem munchP_ext {f : Char → Bool} {xs t r : List Char} {c : Char}
    (h : munchP f xs = (t, c :: r)) (ys : List Char) :
    munchP f (xs ++ ys) = (t, c :: (r ++ ys)) := by
  induction xs generalizing t with
  | nil => simp [munchP] at h
  | cons x xs ih =>
    rcases hm : munchP f xs with ⟨t1, r1⟩
    by_cases hx : f x = true
    · simp only [munchP, if_pos hx, hm] at h
      simp only [Prod.mk.injEq] at h
      obtain ⟨h1, h2⟩ := h
      subst h1; subst h2
      simp only [List.cons_append, munchP, List.append_eq, if_pos hx, ih hm]
    · simp only [munchP, if_neg hx, Prod.mk.injEq] at h
      obtain ⟨h1, h2⟩ := h
      subst h1
      cases h2
      simp [List.cons_append, munchP, if_neg hx]

theorem pAny_retract {xs a r : List Char} (h : pAny (xs ++ '\n' :: a) = some r) :
    ∃ r0, pAny xs = some r0 ∧ r = r0 ++ '\n' :: a := by
  cases xs with
  | nil => simp [pAny] at h
  | cons c cs =>
    simp only [pAny, List.cons_append] at h ⊢
    by_cases hc : c = '\n'
    · simp [hc] at h
    · simp only [if_neg hc, Option.some.injEq] at h ⊢
      exact ⟨cs, rfl, h.symm⟩

theorem pLit_retract {p xs a r : List Char} (hp : '\n' ∉ p)
    (h : pLit p (xs ++ '\n' :: a) = some r) :
    ∃ r0, pLit p xs = some r0 ∧ r = r0 ++ '\n' :: a := by
  induction p generalizing xs with
  | nil =>
    simp only [pLit, Option.some.injEq] at h
    exact ⟨xs, rfl, h.symm⟩
  | cons q qs ih =>
    cases xs with
    | nil =>
      simp only [List.nil_append, pLit] at h
      have hq : ¬ ('\n' = q) := fun e => hp (e ▸ List.mem_cons_self q qs)
      simp [if_neg hq] at h
    | cons c cs =>
      simp only [pLit, List.cons_append] at h ⊢
      by_cases hc : c = q
      · simp only [if_pos hc] at h ⊢
        exact ih (fun m => hp (List.mem_cons_of_mem _ m)) h
      · simp [hc] at h

theorem pHex1_retract {xs a r : List Char} (h : pHex1 (xs ++ '\n' :: a) = some r) :
    ∃ r0, pHex1 xs = some r0 ∧ r = r0 ++ '\n' :: a := by
  cases xs with
  | nil => simp [pHex1, isHexDig_nl] at h
  | cons c cs =>
    simp only [pHex1, List.cons_append] at h ⊢
    by_cases hc : isHexDig c = true
    · simp only [if_pos hc, Option.some.injEq] at h ⊢
      exact ⟨cs, rfl, h.symm⟩
    · simp [hc] at h

theorem pHex3_retract {xs a r : List Char} (h : pHex3 (xs ++ '\n' :: a) = some r) :
    ∃ r0, pHex3 xs = some r0 ∧ r = r0 ++ '\n' :: a := by
  unfold pHex3 at h ⊢
  cases h1 : pHex1 (xs ++ '\n' :: a) with
  | none => simp [h1] at h
  | some l1 =>
    simp only [h1] at h
    obtain ⟨r1, hr1, rfl⟩ := pHex1_retract h1
    cases h2 : pHex1 (r1 ++ '\n' :: a) with
    | none => simp [h2] at h
    | some l2 =>
      simp only [h2] at h
      obtain ⟨r2, hr2, rfl⟩ := pHex1_retract h2
      obtain ⟨r3, hr3, rfl⟩ := pHex1_retract h
      exact ⟨r3, by simp [hr1, hr2, hr3]⟩

theorem munchP_retract {f : Char → Bool} {xs a t r : List Char}
    (hf : f '\n' = false) (h : munchP f (xs ++ '\n' :: a) = (t, r)) :
    ∃ r0, munchP f xs = (t, r0) ∧ r = r0 ++ '\n' :: a := by
  induction xs generalizing t with
  | nil =>
    rw [List.nil_append, munchP, if_neg (by simp [hf])] at h
    simp only [Prod.mk.injEq] at h
    obtain ⟨h1, h2⟩ := h
    subst h1; subst h2
    exact ⟨[], by simp [munchP]⟩
  | cons x xs ih =>
    rcases hm : munchP f (xs ++ '\n' :: a) with ⟨t1, r1⟩
    by_cases hx : f x = true
    · simp only [List.cons_append, munchP, List.append_eq, if_pos hx, hm, Prod.mk.injEq] at h
      obtain ⟨h1, h2⟩ := h
      subst h1; subst h2
      obtain ⟨r0, hr0, rfl⟩ := ih hm
      exact ⟨r0, by simp [munchP, if_pos hx, hr0]⟩
    · simp only [List.cons_append, munchP, List.append_eq, if_neg hx, Prod.mk.injEq] at h
      obtain ⟨h1, h2⟩ := h
      subst h1; subst h2
      exact ⟨x :: xs, by simp [munchP, if_neg hx]⟩

/-! ## Characterisation of successful matches

A successful match of the CSS-rule pattern is equivalent to an explicit
decomposition of the input, from which locality of matching follows by
list algebra. -/

theorem pLit_iff {p xs r : List Char} : pLit p xs = some r ↔ xs = p ++ r := by
  constructor
  · intro h
    induction p generalizing xs with
    | nil => simpa [pLit, eq_comm] using h
    | cons q qs ih =>
      cases xs with
      | nil => simp [pLit] at h
      | cons c cs =>
        simp only [pLit] at h
        by_cases hc : c = q
        · simp only [if_pos hc] at h
          simp [hc, ih h]
        · simp [hc] at h
  · rintro rfl
    induction p with
    | nil => rfl
    | cons q qs ih => simp [pLit, ih]

theorem pAny_iff {xs r : List Char} : pAny xs = some r ↔ ∃ c, ¬ c = '\n' ∧ xs = c :: r := by
  constructor
  · intro h
    cases xs with
    | nil => simp [pAny] at h
    | cons c cs =>
      simp only [pAny] at h
      by_cases hc : c = '\n'
      · simp [hc] at h
      · simp only [if_neg hc, Option.some.injEq] at h
        exact ⟨c, hc, by rw [h]⟩
  · rintro ⟨c, hc, rfl⟩
    simp [pAny, hc]

theorem pHex1_iff {xs r : List Char} :
    pHex1 xs = some r ↔ ∃ c, isHexDig c = true ∧ xs = c :: r := by
  constructor
  · intro h
    cases xs with
    | nil => simp [pHex1] at h
    | cons c cs =>
      simp only [pHex1] at h
      by_cases hc : isHexDig c = true
      · simp only [if_pos hc, Option.some.injEq] at h
        exact ⟨c, hc, by rw [h]⟩
      · simp [hc] at h
  · rintro ⟨c, hc, rfl⟩
    simp [pHex1, hc]

theorem pHex3_iff {xs r : List Char} :
    pHex3 xs = some r ↔
      ∃ h3 : List Char, h3.length = 3 ∧ (∀ c ∈ h3, isHexDig c = true) ∧ xs = h3 ++ r := by
  constructor
  · intro h
    unfold pHex3 at h
    cases h1 : pHex1 xs with
    | none => simp [h1] at h
    | some l1 =>
      simp only [h1] at h
      cases h2 : pHex1 l1 with
      | none => simp [h2] at h
      | some l2 =>
        simp only [h2] at h
        obtain ⟨a, ha, rfl⟩ := pHex1_iff.mp h1
        obtain ⟨b, hb, rfl⟩ := pHex1_iff.mp h2
        obtain ⟨c, hc, rfl⟩ := pHex1_iff.mp h
        exact ⟨[a, b, c], rfl, by simp [ha, hb, hc], rfl⟩
  · rintro ⟨h3, hlen, hdig, rfl⟩
    match h3, hlen with
    | [a, b, c], _ =>
      have ha := hdig a (by simp)
      have hb := hdig b (by simp)
      have hc := hdig c (by simp)
      simp [pHex3, pHex1, ha, hb, hc]

theorem munchP_eq_append {f : Char → Bool} {xs t r : List Char}
    (h : munchP f xs = (t, r)) : xs = t ++ r ∧ ∀ c ∈ t, f c = true := by
  induction xs generalizing t with
  | nil =>
    simp only [munchP, Prod.mk.injEq] at h
    obtain ⟨h1, h2⟩ := h
    subst h1; subst h2
    simp
  | cons x xs ih =>
    by_cases hx : f x = true
    · rcases hm : munchP f xs with ⟨t1, r1⟩
      simp only [munchP, hx, if_true, hm, Prod.mk.injEq] at h
      obtain ⟨h1, h2⟩ := h
      subst h1; subst h2
      obtain ⟨he, hall⟩ := ih hm
      constructor
      · simp [he]
      · intro c hcm
        rcases List.mem_cons.mp hcm with rfl | hcm
        · exact hx
        · exact hall c hcm
    · simp only [munchP, hx, Bool.false_eq_true, if_false, Prod.mk.injEq] at h
      obtain ⟨h1, h2⟩ := h
      subst h1; subst h2
      simp

theorem munchP_of_shape {f : Char → Bool} {t r : List Char} {c0 : Char}
    (ht : ∀ c ∈ t, f c = true) (hc0 : f c0 = false) :
    munchP f (t ++ c0 :: r) = (t, c0 :: r) := by
  induction t with
  | nil => simp [munchP, hc0]
  | cons x ts ih =>
    have hx : f x = true := ht x (by simp)
    have ihh := ih (fun c hc => ht c (List.mem_cons_of_mem _ hc))
    simp [munchP, hx, ihh]

theorem cssTail_eq_some_iff {rt l nm r : List Char} :
    cssTail rt l = some (nm, r) ↔ CssTailShape rt l nm r := by
  constructor
  · intro h
    unfold cssTail at h
    cases h1 : pLit ['-'] l with
    | none => simp [h1] at h
    | some l1 =>
      simp only [h1] at h
      rcases hmu : munchP isCssAlnum l1 with ⟨nm1, l2⟩
      simp only [hmu] at h
      cases nm1 with
      | nil => simp at h
      | cons n0 ns =>
        simp only at h
        cases h3 : pLit [' ', '\x7b'] l2 with
        | none => simp [h3] at h
        | some l3 =>
          simp only [h3] at h
          cases h4 : pLit rt l3 with
          | none => simp [h4] at h
          | some l4 =>
            simp only [h4] at h
            cases h5 : pLit [':', '#'] l4 with
            | none => simp [h5] at h
            | some l5 =>
              simp only [h5] at h
              cases h6 : pHex3 l5 with
              | none => simp [h6] at h
              | some l6 =>
                simp only [h6] at h
                have hl : l = '-' :: l1 := pLit_iff.mp h1
                obtain ⟨ha, hb⟩ := munchP_eq_append hmu
                have hl2 : l2 = [' ', '\x7b'] ++ l3 := pLit_iff.mp h3
                have hl3 : l3 = rt ++ l4 := pLit_iff.mp h4
                have hl4 : l4 = [':', '#'] ++ l5 := pLit_iff.mp h5
                cases h7 : pHex3 l6 with
                | some l7 =>
                  simp only [h7] at h
                  cases h8 : pLit [';', '\x7d'] l7 with
                  | some l8 =>
                    simp only [h8, Option.some.injEq, Prod.mk.injEq] at h
                    obtain ⟨rfl, rfl⟩ := h
                    obtain ⟨hx1, hlen1, hdig1, hl5⟩ := pHex3_iff.mp h6
                    obtain ⟨hx2, hlen2, hdig2, hl6⟩ := pHex3_iff.mp h7
                    refine ⟨by simp, hb, hx1 ++ hx2, by simp [hlen1, hlen2], ?_, ?_⟩
                    · intro c hc
                      rcases List.mem_append.mp hc with hc | hc
                      · exact hdig1 c hc
                      · exact hdig2 c hc
                    · rw [hl, ha, hl2, hl3, hl4, hl5, hl6, pLit_iff.mp h8]
                      simp
                  | none =>
                    simp only [h8] at h
                    cases h9 : pLit [';', '\x7d'] l6 with
                    | none => simp [h9] at h
                    | some r9 =>
                      simp only [h9, Option.map_some', Option.some.injEq, Prod.mk.injEq] at h
                      obtain ⟨rfl, rfl⟩ := h
                      obtain ⟨hx1, hlen1, hdig1, hl5⟩ := pHex3_iff.mp h6
                      refine ⟨by simp, hb, hx1, Or.inl hlen1, hdig1, ?_⟩
                      rw [hl, ha, hl2, hl3, hl4, hl5, pLit_iff.mp h9]
                      simp
                | none =>
                  simp only [h7] at h
                  cases h9 : pLit [';', '\x7d'] l6 with
                  | none => simp [h9] at h
                  | some r9 =>
                    simp only [h9, Option.map_some', Option.some.injEq, Prod.mk.injEq] at h
                    obtain ⟨rfl, rfl⟩ := h
                    obtain ⟨hx1, hlen1, hdig1, hl5⟩ := pHex3_iff.mp h6
                    refine ⟨by simp, hb, hx1, Or.inl hlen1, hdig1, ?_⟩
                    rw [hl, ha, hl2, hl3, hl4, hl5, pLit_iff.mp h9]
                    simp
  · rintro ⟨hne, halnum, hex, hlen, hdig, rfl⟩
    unfold cssTail
    have e1 : pLit ['-']
        ('-' :: (nm ++ [' ', '\x7b'] ++ rt ++ [':', '#'] ++ hex ++ [';', '\x7d'] ++ r)) =
        some (nm ++ [' ', '\x7b'] ++ rt ++ [':', '#'] ++ hex ++ [';', '\x7d'] ++ r) :=
      pLit_iff.mpr rfl
    simp only [e1]
    have e2 : munchP isCssAlnum
        (nm ++ [' ', '\x7b'] ++ rt ++ [':', '#'] ++ hex ++ [';', '\x7d'] ++ r) =
        (nm, [' ', '\x7b'] ++ rt ++ [':', '#'] ++ hex ++ [';', '\x7d'] ++ r) := by
      have := @munchP_of_shape isCssAlnum
        nm ('\x7b' :: (rt ++ [':', '#'] ++ hex ++ [';', '\x7d'] ++ r))
        ' ' halnum (by decide)
      rw [show nm ++ [' ', '\x7b'] ++ rt ++ [':', '#'] ++ hex ++ [';', '\x7d'] ++ r =
        nm ++ ' ' :: '\x7b' :: (rt ++ [':', '#'] ++ hex ++ [';', '\x7d'] ++ r) by simp]
      rw [this]
      simp
    simp only [e2]
    cases nm with
    | nil => exact absurd rfl hne
    | cons n0 ns =>
      have e3 : pLit [' ', '\x7b']
          ([' ', '\x7b'] ++ rt ++ [':', '#'] ++ hex ++ [';', '\x7d'] ++ r) =
          some (rt ++ [':', '#'] ++ hex ++ [';', '\x7d'] ++ r) := by
        rw [pLit_iff]; simp
      simp only [e3]
      have e4 : pLit rt (rt ++ [':', '#'] ++ hex ++ [';', '\x7d'] ++ r) =
          some ([':', '#'] ++ hex ++ [';', '\x7d'] ++ r) := by
        rw [pLit_iff]; simp
      simp only [e4]
      have e5 : pLit [':', '#'] ([':', '#'] ++ hex ++ [';', '\x7d'] ++ r) =
          some (hex ++ [';', '\x7d'] ++ r) := by
        rw [pLit_iff]; simp
      simp only [e5]
      have hsemi : isHexDig ';' = false := by decide
      rcases hlen with h3 | h6
      · match hex, h3 with
        | [a, b, c], _ =>
          have e6 : pHex3 ([a, b, c] ++ [';', '\x7d'] ++ r) = some ([';', '\x7d'] ++ r) := by
            rw [pHex3_iff]
            exact ⟨[a, b, c], rfl, hdig, by simp⟩
          simp only [e6]
          have e7 : pHex3 ([';', '\x7d'] ++ r) = none := by
            simp [pHex3, pHex1, hsemi]
          simp only [e7]
          have e8 : pLit [';', '\x7d'] (';' :: '\x7d' :: r) = some r := by
            rw [pLit_iff]; simp
          simp [e8]
      · match hex, h6 with
        | [a, b, c, d, e, f], _ =>
          have e6 : pHex3 ([a, b, c, d, e, f] ++ [';', '\x7d'] ++ r) =
              some ([d, e, f] ++ ([';', '\x7d'] ++ r)) := by
            rw [pHex3_iff]
            refine ⟨[a, b, c], rfl, fun c0 hc0 => hdig c0 (by simp at hc0 ⊢; tauto), by simp⟩
          simp only [e6]
          have e7 : pHex3 ([d, e, f] ++ ([';', '\x7d'] ++ r)) = some ([';', '\x7d'] ++ r) := by
            rw [pHex3_iff]
            refine ⟨[d, e, f], rfl, fun c0 hc0 => hdig c0 (by simp at hc0 ⊢; tauto), by simp⟩
          simp only [e7]
          have e8 : pLit [';', '\x7d'] (';' :: '\x7d' :: r) = some r := by
            rw [pLit_iff]; simp
          simp [e8]

theorem cssMatchAt_eq_some_iff {l rt nm r : List Char} :
    cssMatchAt l = some (rt, nm, r) ↔ CssMatchShape rt l nm r := by
  constructor
  · intro h
    unfold cssMatchAt at h
    cases h0 : pAny l with
    | none => simp [h0] at h
    | some l0 =>
      simp only [h0] at h
      obtain ⟨c, hc, rfl⟩ := pAny_iff.mp h0
      cases h1 : pLit fillCs l0 with
      | some l1 =>
        simp only [h1] at h
        cases h2 : cssTail fillCs l1 with
        | none => simp [h2] at h
        | some p =>
          rcases p with ⟨nm1, r1⟩
          simp only [h2, Option.map_some', Option.some.injEq, Prod.mk.injEq] at h
          obtain ⟨rfl, rfl, rfl⟩ := h
          exact ⟨Or.inl rfl, c, l1, hc, by rw [pLit_iff.mp h1],
            cssTail_eq_some_iff.mp h2⟩
      | none =>
        simp only [h1] at h
        cases h1' : pLit strokeCs l0 with
        | none => simp [h1'] at h
        | some l1 =>
          simp only [h1'] at h
          cases h2 : cssTail strokeCs l1 with
          | none => simp [h2] at h
          | some p =>
            rcases p with ⟨nm1, r1⟩
            simp only [h2, Option.map_some', Option.some.injEq, Prod.mk.injEq] at h
            obtain ⟨rfl, rfl, rfl⟩ := h
            exact ⟨Or.inr rfl, c, l1, hc, by rw [pLit_iff.mp h1'],
              cssTail_eq_some_iff.mp h2⟩
  · rintro ⟨hrt, c, tl, hc, rfl, hshape⟩
    unfold cssMatchAt
    have h0 : pAny (c :: (rt ++ tl)) = some (rt ++ tl) := by simp [pAny, hc]
    simp only [h0]
    rcases hrt with rfl | rfl
    · have h1 : pLit fillCs (fillCs ++ tl) = some tl := pLit_iff.mpr rfl
      simp only [h1, cssTail_eq_some_iff.mpr hshape, Option.map_some']
    · have h1 : pLit fillCs (strokeCs ++ tl) = none := by
        simp [fillCs, strokeCs, pLit]
      have h1' : pLit strokeCs (strokeCs ++ tl) = some tl := pLit_iff.mpr rfl
      simp only [h1, h1', cssTail_eq_some_iff.mpr hshape, Option.map_some']

theorem cssMatchAt_ext {l rt nm r : List Char} (ys : List Char)
    (h : cssMatchAt l = some (rt, nm, r)) :
    cssMatchAt (l ++ ys) = some (rt, nm, r ++ ys) := by
  obtain ⟨hrt, c, tl, hc, rfl, hne, hal, hex, hlen, hdig, rfl⟩ := cssMatchAt_eq_some_iff.mp h
  apply cssMatchAt_eq_some_iff.mpr
  refine ⟨hrt, c,
    '-' :: (nm ++ [' ', '\x7b'] ++ rt ++ [':', '#'] ++ hex ++ [';', '\x7d'] ++ (r ++ ys)),
    hc, ?_, hne, hal, hex, hlen, hdig, rfl⟩
  simp

/-- Splitting a newline-free prefix off an equation across `++`. -/
theorem append_split_of_nl {P xs a r : List Char}
    (h : xs ++ '\n' :: a = P ++ r) (hP : '\n' ∉ P) :
    ∃ r0, xs = P ++ r0 ∧ r = r0 ++ '\n' :: a := by
  induction P generalizing xs with
  | nil =>
    simp only [List.nil_append] at h ⊢
    exact ⟨xs, rfl, h.symm⟩
  | cons p ps ih =>
    cases xs with
    | nil =>
      simp only [List.nil_append, List.cons_append, List.cons.injEq] at h
      exact absurd (h.1 ▸ List.mem_cons_self p ps) hP
    | cons x xs' =>
      simp only [List.cons_append, List.cons.injEq] at h
      obtain ⟨rfl, h2⟩ := h
      obtain ⟨r0, hr1, hr2⟩ := ih h2 (fun m => hP (List.mem_cons_of_mem _ m))
      exact ⟨r0, by simp [hr1], hr2⟩

theorem cssMatchAt_retract {xs a rt nm r : List Char}
    (h : cssMatchAt (xs ++ '\n' :: a) = some (rt, nm, r)) :
    ∃ r0, cssMatchAt xs = some (rt, nm, r0) ∧ r = r0 ++ '\n' :: a := by
  obtain ⟨hrt, c, tl, hc, heq, hne, hal, hex, hlen, hdig, htl⟩ := cssMatchAt_eq_some_iff.mp h
  subst htl
  have hrtn : '\n' ∉ rt := by
    rcases hrt with rfl | rfl
    · decide
    · decide
  have h1 : '\n' ∉ nm := fun m => by simpa [isCssAlnum_nl] using hal _ m
  have h2 : '\n' ∉ hex := fun m => by simpa [isHexDig_nl] using hdig _ m
  have hP : xs ++ '\n' :: a =
      (c :: (rt ++ '-' :: (nm ++ [' ', '\x7b'] ++ rt ++ [':', '#'] ++ hex ++ [';', '\x7d']))) ++ r := by
    rw [heq]; simp
  have hnot : '\n' ∉
      c :: (rt ++ '-' :: (nm ++ [' ', '\x7b'] ++ rt ++ [':', '#'] ++ hex ++ [';', '\x7d'])) := by
    intro hm
    rcases List.mem_cons.mp hm with e | hm
    · exact hc e.symm
    rcases List.mem_append.mp hm with hm | hm
    · exact hrtn hm
    rcases List.mem_cons.mp hm with e | hm
    · exact absurd e (by decide)
    rcases List.mem_append.mp hm with hm | hm
    · rcases List.mem_append.mp hm with hm | hm
      · rcases List.mem_append.mp hm with hm | hm
        · rcases List.mem_append.mp hm with hm | hm
          · rcases List.mem_append.mp hm with hm | hm
            · exact h1 hm
            · exact absurd hm (by decide)
          · exact hrtn hm
        · exact absurd hm (by decide)
      · exact h2 hm
    · exact absurd hm (by decide)
  obtain ⟨r0, hxs, hr⟩ := append_split_of_nl hP hnot
  refine ⟨r0, cssMatchAt_eq_some_iff.mpr ⟨hrt, c,
    '-' :: (nm ++ [' ', '\x7b'] ++ rt ++ [':', '#'] ++ hex ++ [';', '\x7d'] ++ r0),
    hc, ?_, hne, hal, hex, hlen, hdig, rfl⟩, hr⟩
  rw [hxs]; simp

theorem cssMatchAt_length {l rt nm r : List Char} (h : cssMatchAt l = some (rt, nm, r)) :
    r.length < l.length := by
  obtain ⟨hrt, c, tl, hc, rfl, hne, hal, hex, hlen, hdig, rfl⟩ := cssMatchAt_eq_some_iff.mp h
  simp [List.length_append]
  omega

/-! ## Scanner lemmas -/

theorem cssScanF_fuelIrrel :
    ∀ {n m : Nat} {l : List Char}, l.length ≤ n → l.length ≤ m → cssScanF n l = cssScanF m l := by
  intro n
  induction n with
  | zero =>
    intro m l hn _
    have : l = [] := List.eq_nil_of_length_eq_zero (Nat.le_zero.mp hn)
    subst this
    cases m <;> rfl
  | succ n ih =>
    intro m l hn hm
    cases l with
    | nil => cases m <;> rfl
    | cons c cs =>
      cases m with
      | zero => simp at hm
      | succ m' =>
        cases hq : cssMatchAt (c :: cs) with
        | some p =>
          rcases p with ⟨rt, nm, r⟩
          simp only [cssScanF, hq]
          have hr := cssMatchAt_length hq
          simp only [List.length_cons] at hr hn hm
          rw [@ih m' r (by omega) (by omega)]
        | none =>
          simp only [cssScanF, hq]
          simp only [List.length_cons] at hn hm
          exact ih (by omega) (by omega)

theorem cssScan_cons_some {c : Char} {cs rt nm r : List Char}
    (h : cssMatchAt (c :: cs) = some (rt, nm, r)) :
    cssScan (c :: cs) = (rt, nm) :: cssScan r := by
  unfold cssScan
  simp only [List.length_cons, cssScanF, h]
  have hr := cssMatchAt_length h
  simp only [List.length_cons] at hr
  rw [cssScanF_fuelIrrel (by omega) (le_refl _)]

theorem cssScan_cons_none {c : Char} {cs : List Char} (h : cssMatchAt (c :: cs) = none) :
    cssScan (c :: cs) = cssScan cs := by
  unfold cssScan
  simp only [List.length_cons, cssScanF, h]

/-- Scanning never crosses a newline: the scan of `xs ++ '\n' :: ys`
splits at the newline. -/
theorem cssScan_append_nl (xs ys : List Char) :
    cssScan (xs ++ '\n' :: ys) = cssScan xs ++ cssScan ('\n' :: ys) := by
  have H : ∀ (n : Nat) (xs : List Char), xs.length ≤ n →
      cssScan (xs ++ '\n' :: ys) = cssScan xs ++ cssScan ('\n' :: ys) := by
    intro n
    induction n with
    | zero =>
      intro xs hn
      have : xs = [] := List.eq_nil_of_length_eq_zero (Nat.le_zero.mp hn)
      subst this
      rfl
    | succ n ih =>
      intro xs hn
      cases xs with
      | nil => rfl
      | cons c cs =>
        simp only [List.cons_append]
        cases hm : cssMatchAt (c :: (cs ++ '\n' :: ys)) with
        | some p =>
          rcases p with ⟨rt, nm, r⟩
          obtain ⟨r0, hm0, rfl⟩ :=
            @cssMatchAt_retract (c :: cs) ys rt nm r (by simpa using hm)
          rw [cssScan_cons_some hm, cssScan_cons_some hm0]
          have hr0 := cssMatchAt_length hm0
          simp only [List.length_cons] at hr0 hn
          have := ih r0 (by omega)
          simp [this]
        | none =>
          have hm0 : cssMatchAt (c :: cs) = none := by
            cases hq : cssMatchAt (c :: cs) with
            | none => rfl
            | some p =>
              rcases p with ⟨rt, nm, r⟩
              have hext := cssMatchAt_ext ('\n' :: ys) hq
              simp only [List.cons_append] at hext
              rw [hm] at hext
              cases hext
          rw [cssScan_cons_none hm, cssScan_cons_none hm0]
          simp only [List.length_cons] at hn
          exact ih cs (by omega)
  exact H xs.length xs (le_refl _)

/-! ## The mangled substitution is the identity on U+0001-free text -/

theorem pLit_mem {p xs r : List Char} (h : pLit p xs = some r) {c : Char} (hc : c ∈ p) :
    c ∈ xs := by
  rw [pLit_iff.mp h]
  exact List.mem_append_left _ hc

theorem brokenMatchAt_mem {rt nm l r : List Char} (h : brokenMatchAt rt nm l = some r) :
    '\x01' ∈ l := by
  unfold brokenMatchAt at h
  cases h0 : pAny l with
  | none => simp only [h0] at h; exact Option.noConfusion h
  | some l0 =>
    simp only [h0] at h
    cases h1 : pLit (rt ++ '-' :: nm ++ [' ', '\x7b', '\x01', ':', '#']) l0 with
    | none =>
      rw [h1] at h
      simp at h
    | some l1 =>
      obtain ⟨c, hc, rfl⟩ := pAny_iff.mp h0
      apply List.mem_cons_of_mem
      refine pLit_mem h1 ?_
      apply List.mem_append_right
      decide

theorem subBrokenF_id {rt nm repl : List Char} :
    ∀ {n : Nat} {l : List Char}, '\x01' ∉ l → subBrokenF rt nm repl n l = l := by
  intro n
  induction n with
  | zero => intro l _; rfl
  | succ n ih =>
    intro l h
    cases l with
    | nil => rfl
    | cons c cs =>
      cases hm : brokenMatchAt rt nm (c :: cs) with
      | some r => exact absurd (brokenMatchAt_mem hm) h
      | none =>
        simp only [subBrokenF, hm]
        rw [ih (fun m => h (List.mem_cons_of_mem _ m))]

theorem subBroken_id {rt nm repl l : List Char} (h : '\x01' ∉ l) :
    subBroken rt nm repl l = l :=
  subBrokenF_id h

/-! ## Scanning the appended rule lines -/

theorem cssMatchAt_nl {X : List Char} : cssMatchAt ('\n' :: X) = none := by
  unfold cssMatchAt
  simp [pAny]

theorem pLit_cons_ne {p : Char} {ps xs : List Char} {c : Char} (h : ¬ c = p) :
    pLit (p :: ps) (c :: xs) = none := by
  simp [pLit, h]

theorem cssMatchAt_none_of_lit {c0 : Char} {T : List Char}
    (hf : pLit fillCs T = none) (hs : pLit strokeCs T = none) :
    cssMatchAt (c0 :: T) = none := by
  unfold cssMatchAt
  by_cases hc0 : c0 = '\n'
  · simp [pAny, hc0]
  · simp [pAny, hc0, hf, hs]

/-- Scanning an appended rule line finds exactly its one rule, then
continues after the line. -/
theorem cssScan_newRuleLine {rt nm hex rest : List Char}
    (hrt : rt = fillCs ∨ rt = strokeCs) (hne : nm ≠ [])
    (hal : ∀ c ∈ nm, isCssAlnum c = true)
    (hlen : hex.length = 3 ∨ hex.length = 6) (hdig : ∀ c ∈ hex, isHexDig c = true) :
    cssScan (newRuleLine rt nm ('#' :: hex) ++ rest) = (rt, nm) :: cssScan rest := by
  have hm : cssMatchAt
      ('.' :: (rt ++ ('-' :: (nm ++ [' ', '\x7b'] ++ rt ++ [':', '#'] ++ hex ++ [';', '\x7d'] ++ rest)))) =
      some (rt, nm, rest) := by
    apply cssMatchAt_eq_some_iff.mpr
    exact ⟨hrt, '.', _, by decide, rfl, hne, hal, hex, hlen, hdig, rfl⟩
  have hb : newRuleLine rt nm ('#' :: hex) ++ rest =
      '\n' :: ' ' :: ' ' :: ' ' :: ' ' :: ' ' :: ' ' :: ' ' :: ' ' ::
        ('.' :: (rt ++ ('-' :: (nm ++ [' ', '\x7b'] ++ rt ++ [':', '#'] ++ hex ++ [';', '\x7d'] ++ rest)))) := by
    simp [newRuleLine, cssReplacement]
  rw [hb]
  rw [cssScan_cons_none cssMatchAt_nl]
  rw [cssScan_cons_none (cssMatchAt_none_of_lit (pLit_cons_ne (by decide)) (pLit_cons_ne (by decide)))]
  rw [cssScan_cons_none (cssMatchAt_none_of_lit (pLit_cons_ne (by decide)) (pLit_cons_ne (by decide)))]
  rw [cssScan_cons_none (cssMatchAt_none_of_lit (pLit_cons_ne (by decide)) (pLit_cons_ne (by decide)))]
  rw [cssScan_cons_none (cssMatchAt_none_of_lit (pLit_cons_ne (by decide)) (pLit_cons_ne (by decide)))]
  rw [cssScan_cons_none (cssMatchAt_none_of_lit (pLit_cons_ne (by decide)) (pLit_cons_ne (by decide)))]
  rw [cssScan_cons_none (cssMatchAt_none_of_lit (pLit_cons_ne (by decide)) (pLit_cons_ne (by decide)))]
  rw [cssScan_cons_none (cssMatchAt_none_of_lit (pLit_cons_ne (by decide)) (pLit_cons_ne (by decide)))]
  rw [cssScan_cons_none (cssMatchAt_none_of_lit (pLit_cons_ne (by decide)) (pLit_cons_ne (by decide)))]
  rw [cssScan_cons_some hm]

theorem cssScan_append_ruleLine (s : List Char) {rt nm hex rest : List Char}
    (hrt : rt = fillCs ∨ rt = strokeCs) (hne : nm ≠ [])
    (hal : ∀ c ∈ nm, isCssAlnum c = true)
    (hlen : hex.length = 3 ∨ hex.length = 6) (hdig : ∀ c ∈ hex, isHexDig c = true) :
    cssScan (s ++ (newRuleLine rt nm ('#' :: hex) ++ rest)) =
      cssScan s ++ ((rt, nm) :: cssScan rest) := by
  have h1 : s ++ (newRuleLine rt nm ('#' :: hex) ++ rest) =
      s ++ '\n' :: (([' ', ' ', ' ', ' ', ' ', ' ', ' ', ' '] ++
        cssReplacement rt nm ('#' :: hex)) ++ rest) := rfl
  rw [h1, cssScan_append_nl]
  congr 1
  exact cssScan_newRuleLine hrt hne hal hlen hdig

/-- Scanning text followed by the appended block of rule lines. -/
theorem cssScan_block :
    ∀ (ms : List (List Char × List Char)) (s : List Char), (∀ p ∈ ms, WfThemeEntry p) →
      cssScan (s ++ (ms.map ruleLines).flatten) =
        cssScan s ++ (ms.map (fun p => [(fillCs, p.1), (strokeCs, p.1)])).flatten := by
  intro ms
  induction ms with
  | nil => intro s _; simp
  | cons p ms ih =>
    intro s hwf
    obtain ⟨hne, hal, hex, hv, hlen, hdig⟩ := hwf p (List.mem_cons_self p ms)
    rcases p with ⟨nm, v⟩
    simp only at hv
    subst hv
    simp only [List.map_cons, List.flatten_cons]
    have hassoc : s ++ (ruleLines (nm, '#' :: hex) ++ (ms.map ruleLines).flatten) =
        s ++ (newRuleLine fillCs nm ('#' :: hex) ++
          (newRuleLine strokeCs nm ('#' :: hex) ++ (ms.map ruleLines).flatten)) := by
      simp [ruleLines]
    rw [hassoc]
    rw [cssScan_append_ruleLine s (Or.inl rfl) hne hal hlen hdig]
    have h2 : cssScan (newRuleLine strokeCs nm ('#' :: hex) ++ (ms.map ruleLines).flatten) =
        (strokeCs, nm) :: cssScan (ms.map ruleLines).flatten :=
      cssScan_newRuleLine (Or.inr rfl) hne hal hlen hdig
    rw [h2]
    have h3 : cssScan (ms.map ruleLines).flatten =
        cssScan ([] : List Char) ++ (ms.map (fun p => [(fillCs, p.1), (strokeCs, p.1)])).flatten := by
      have := ih [] (fun q hq => hwf q (List.mem_cons_of_mem _ hq))
      simpa using this
    rw [h3]
    simp [cssScan, cssScanF]

/-! ## The update as text extension, and idempotence -/

theorem subs_foldl_id {theme : List (List Char × List Char)} {s : List Char}
    (hs : '\x01' ∉ s) (rules : List (List Char × List Char)) :
    rules.foldl (fun acc ru =>
      match themeLookup theme ru.2 with
      | some v => subBroken ru.1 ru.2 (cssReplacement ru.1 ru.2 v) acc
      | none => acc) s = s := by
  induction rules with
  | nil => rfl
  | cons ru rules ih =>
    cases h : themeLookup theme ru.2 with
    | none =>
      simp only [List.foldl_cons, h]
      exact ih
    | some v =>
      simp only [List.foldl_cons, h]
      rw [subBroken_id hs]
      exact ih

theorem append_foldl_lines (upd : List (List Char)) :
    ∀ (l : List (List Char × List Char)) (acc : List Char),
      l.foldl (fun a p =>
        if upd.contains p.1 then a
        else a ++ newRuleLine fillCs p.1 p.2 ++ newRuleLine strokeCs p.1 p.2) acc =
      acc ++ ((l.filter (fun p => !(upd.contains p.1))).map ruleLines).flatten := by
  intro l
  induction l with
  | nil => intro acc; simp
  | cons p l ih =>
    intro acc
    simp only [List.foldl_cons]
    by_cases hc : upd.contains p.1
    · have hf : List.filter (fun p => !upd.contains p.1) (p :: l) =
          List.filter (fun p => !upd.contains p.1) l := by
        simp only [List.filter_cons, hc, Bool.not_true, Bool.false_eq_true, if_false]
      rw [if_pos hc, ih acc, hf]
    · have hcb : upd.contains p.1 = false := by
        cases hq : upd.contains p.1
        · rfl
        · exact absurd hq hc
      have hf : List.filter (fun p => !upd.contains p.1) (p :: l) =
          p :: List.filter (fun p => !upd.contains p.1) l := by
        simp only [List.filter_cons, hcb, Bool.not_false, if_true]
      rw [if_neg hc, ih, hf]
      simp [ruleLines, List.append_assoc]

/-- On U+0001-free style text, `update_svg_style` is exactly "append the
rule lines of the missing colours" (the in-place `re.sub` never fires). -/
theorem update_svg_style_eq (theme : List (List Char × List Char)) {s : List Char}
    (hs : '\x01' ∉ s) :
    update_svg_style theme s = s ++ ((missingColors theme s).map ruleLines).flatten := by
  unfold update_svg_style missingColors
  simp only [subs_foldl_id hs]
  rw [append_foldl_lines]

theorem x01_notin_newRuleLine {rt nm hex : List Char}
    (hrt : rt = fillCs ∨ rt = strokeCs)
    (hal : ∀ c ∈ nm, isCssAlnum c = true) (hdig : ∀ c ∈ hex, isHexDig c = true) :
    '\x01' ∉ newRuleLine rt nm ('#' :: hex) := by
  have hrtn : '\x01' ∉ rt := by
    rcases hrt with rfl | rfl
    · decide
    · decide
  intro hm
  simp only [newRuleLine, cssReplacement, List.mem_append, List.mem_cons,
    List.not_mem_nil, or_false] at hm
  rcases hm with h | h
  · exact absurd h (by decide)
  · rcases h with (((h | h) | h) | h) | h
    · rcases h with (h | h) | h | h
      · exact absurd h (by decide)
      · exact hrtn h
      · exact absurd h (by decide)
      · exact absurd (hal _ h) (by decide)
    · exact absurd h (by decide)
    · exact hrtn h
    · rcases h with h | h | h
      · exact absurd h (by decide)
      · exact absurd h (by decide)
      · exact absurd (hdig _ h) (by decide)
    · exact absurd h (by decide)

theorem x01_notin_block {ms : List (List Char × List Char)}
    (hwf : ∀ p ∈ ms, WfThemeEntry p) :
    '\x01' ∉ (ms.map ruleLines).flatten := by
  intro hm
  rw [List.mem_flatten] at hm
  obtain ⟨ln, hl, hmem⟩ := hm
  rw [List.mem_map] at hl
  obtain ⟨p, hp, rfl⟩ := hl
  obtain ⟨hne, hal, hex, hv, hlen, hdig⟩ := hwf p hp
  rcases p with ⟨nm, v⟩
  simp only at hv hal
  subst hv
  rcases List.mem_append.mp hmem with h | h
  · exact x01_notin_newRuleLine (Or.inl rfl) hal hdig h
  · exact x01_notin_newRuleLine (Or.inr rfl) hal hdig h

theorem themeLookup_isSome_of_mem {theme : List (List Char × List Char)}
    {p : List Char × List Char} (hp : p ∈ theme) : (themeLookup theme p.1).isSome := by
  unfold themeLookup
  cases hf : theme.find? (fun q => q.1 = p.1) with
  | some q => simp
  | none =>
    rw [List.find?_eq_none] at hf
    exact absurd (by simp : (fun q => decide (q.1 = p.1)) p = true) (by simpa using hf p hp)

theorem mem_updatedColors_of {theme rules : List (List Char × List Char)}
    {rt nm : List Char} (h : (rt, nm) ∈ rules)
    (hsome : (themeLookup theme nm).isSome) :
    nm ∈ updatedColors theme rules := by
  unfold updatedColors
  rw [List.mem_filterMap]
  exact ⟨(rt, nm), h, by simp [hsome]⟩

/-- Claim C3, amended: for theme tables whose colour names are nonempty
alphanumeric strings and whose values are `#` followed by three or six
hex digits (the form produced by `load_theme_colors` from well-formed
ini values), and whose style text contains no U+0001 character (true of
any real XML text), running `update_svg_style` a second time leaves the
style text byte-identical: the rules appended by the first run are
matched by the second run's scan, so every theme name is marked updated
and nothing further is appended. -/
theorem c3_update_svg_style_idempotent (theme : List (List Char × List Char))
    (s : List Char) (hwf : ∀ p ∈ theme, WfThemeEntry p) (hs : '\x01' ∉ s) :
    update_svg_style theme (update_svg_style theme s) = update_svg_style theme s := by
  have ht : update_svg_style theme s =
      s ++ ((missingColors theme s).map ruleLines).flatten :=
    update_svg_style_eq theme hs
  have hwfm : ∀ p ∈ missingColors theme s, WfThemeEntry p :=
    fun p hp => hwf p (List.mem_of_mem_filter hp)
  have ht01 : '\x01' ∉ update_svg_style theme s := by
    rw [ht]
    intro hm
    rcases List.mem_append.mp hm with h | h
    · exact hs h
    · exact x01_notin_block hwfm h
  have hscan : cssScan (update_svg_style theme s) =
      cssScan s ++
        ((missingColors theme s).map (fun p => [(fillCs, p.1), (strokeCs, p.1)])).flatten := by
    rw [ht]
    exact cssScan_block _ _ hwfm
  have hupd : ∀ p ∈ theme,
      p.1 ∈ updatedColors theme (cssScan (update_svg_style theme s)) := by
    intro p hp
    rw [hscan]
    unfold updatedColors
    rw [List.filterMap_append]
    by_cases hcon : p.1 ∈ updatedColors theme (cssScan s)
    · exact List.mem_append_left _ hcon
    · apply List.mem_append_right
      have hmiss : p ∈ missingColors theme s := by
        unfold missingColors
        rw [List.mem_filter]
        refine ⟨hp, ?_⟩
        simp only [Bool.not_eq_true']
        cases hq : (updatedColors theme (cssScan s)).contains p.1
        · rfl
        · exact absurd (by simpa using hq) hcon
      have hpair : (fillCs, p.1) ∈
          ((missingColors theme s).map (fun p => [(fillCs, p.1), (strokeCs, p.1)])).flatten := by
        rw [List.mem_flatten]
        exact ⟨[(fillCs, p.1), (strokeCs, p.1)], List.mem_map.mpr ⟨p, hmiss, rfl⟩, by simp⟩
      exact mem_updatedColors_of hpair (themeLookup_isSome_of_mem hp)
  have hmissnil : missingColors theme (update_svg_style theme s) = [] := by
    unfold missingColors
    rw [List.filter_eq_nil_iff]
    intro p hp
    simp only [Bool.not_eq_true', Bool.not_eq_false]
    simpa using hupd p hp
  rw [update_svg_style_eq theme ht01, hmissnil]
  simp

/-- Witness for the amended claim C3 at a concrete theme and empty
style text. -/
theorem c3_update_svg_style_idempotent_witness :
    update_svg_style [(['r', 'e', 'd'], ['#', 'f', 'f', '0', '0', '0', '0'])]
        (update_svg_style [(['r', 'e', 'd'], ['#', 'f', 'f', '0', '0', '0', '0'])] []) =
      update_svg_style [(['r', 'e', 'd'], ['#', 'f', 'f', '0', '0', '0', '0'])] [] := by
  apply c3_update_svg_style_idempotent
  · intro p hp
    rcases List.mem_singleton.mp hp with rfl
    exact ⟨by decide, by decide, ['f', 'f', '0', '0', '0', '0'], rfl, by decide, by decide⟩
  · decide

example :
    processElement [(['#', 'f', 'f', '0', '0', '0', '0'], ['r', 'e', 'd'])]
        [(fillCs, ['#', 'f', 'f', '0', '0', '0', '0'])] =
      some [(classK, fillCs ++ '-' :: ['r', 'e', 'd'])] := by decide

example :
    processElement []
        [(styleK, [' '])] = some [(styleK, [])] := by decide

/-! ## Split/join toolkit -/

theorem splitOnChar_ne_nil {sep : Char} (l : List Char) : splitOnChar sep l ≠ [] := by
  cases l with
  | nil => simp [splitOnChar]
  | cons c cs =>
    unfold splitOnChar
    cases splitOnChar sep cs with
    | nil => simp
    | cons r rs =>
      by_cases hc : c = sep
      · simp [hc]
      · simp [hc]

theorem splitOnChar_nosep {sep : Char} {t : List Char} (h : sep ∉ t) :
    splitOnChar sep t = [t] := by
  induction t with
  | nil => rfl
  | cons c cs ih =>
    have hc : ¬ c = sep := fun e => h (e ▸ List.mem_cons_self c cs)
    unfold splitOnChar
    rw [ih (fun m => h (List.mem_cons_of_mem _ m))]
    simp [hc]

theorem splitOnChar_append_cons {sep : Char} {t r : List Char} (h : sep ∉ t) :
    splitOnChar sep (t ++ sep :: r) = t :: splitOnChar sep r := by
  induction t with
  | nil =>
    simp only [List.nil_append]
    cases hs : splitOnChar sep r with
    | nil => exact absurd hs (splitOnChar_ne_nil r)
    | cons q qs =>
      conv_lhs => rw [splitOnChar]
      rw [hs]
      simp
  | cons c cs ih =>
    have hc : ¬ c = sep := fun e => h (e ▸ List.mem_cons_self c cs)
    simp only [List.cons_append]
    conv_lhs => rw [splitOnChar]
    rw [ih (fun m => h (List.mem_cons_of_mem _ m))]
    simp [hc]

theorem splitOnChar_joinSep {sep : Char} :
    ∀ {l : List (List Char)}, l ≠ [] → (∀ t ∈ l, sep ∉ t) →
      splitOnChar sep (joinSep sep l) = l := by
  intro l
  induction l with
  | nil => intro h _; exact absurd rfl h
  | cons t ts ih =>
    intro _ hsep
    cases ts with
    | nil => exact splitOnChar_nosep (hsep t (List.mem_cons_self t []))
    | cons t2 ts2 =>
      show splitOnChar sep (t ++ sep :: joinSep sep (t2 :: ts2)) = t :: t2 :: ts2
      rw [splitOnChar_append_cons (hsep t (List.mem_cons_self t _))]
      rw [ih (by simp) (fun q hq => hsep q (List.mem_cons_of_mem _ hq))]

theorem foldlM_none {σ α : Type} (f : σ → α → Option σ) :
    ∀ (l : List α) (st : σ) {a : α}, a ∈ l → (∀ st', f st' a = none) →
      l.foldlM f st = none := by
  intro l
  induction l with
  | nil => intro st a ha; exact absurd ha (List.not_mem_nil a)
  | cons x xs ih =>
    intro st a ha hbad
    rw [List.foldlM_cons]
    rcases List.mem_cons.mp ha with rfl | ha
    · rw [hbad st]
      rfl
    · cases hx : f st x with
      | none => rfl
      | some st1 =>
        exact ih st1 ha hbad

/-- Claim C8, counterexample: a style attribute consisting of a single
space is nonempty and splits (on `;`) into one segment with no colon,
yet the Attribute Normalizer strips it to the empty string, returns
early, and succeeds: no fatal parse error is raised. -/
theorem c8_whitespace_style_no_error :
    ([' '] : List Char) ≠ [] ∧
    (∃ seg ∈ splitOnChar ';' [' '], ':' ∉ seg) ∧
    processElement [] [(styleK, [' '])] = some [(styleK, [])] := by
  decide

/-- Claim C8, amended: for every element whose style attribute is
nonempty after stripping whitespace and whose stripped text splits on
`;` into some segment containing no `:`, the Attribute Normalizer
raises a fatal parse error (the `ValueError` from unpacking
`split(":")`); malformed style input is never silently skipped. -/
theorem c8_malformed_style_fatal (cm : List (List Char × List Char)) (el : Element)
    (sa seg : List Char) (hsty : getAttr el styleK = some sa)
    (hne : pyStrip sa ≠ []) (hseg : seg ∈ splitOnChar ';' (pyStrip sa))
    (hnc : ':' ∉ seg) :
    processElement cm el = none := by
  have hbad : ∀ st, styleDeclStep cm st seg = none := by
    intro st
    unfold styleDeclStep
    rw [splitOnChar_nosep hnc]
  have hmod : modify_style_attribute cm sa = none := by
    unfold modify_style_attribute
    rw [if_neg hne]
    rw [foldlM_none _ _ _ hseg hbad]
    rfl
  unfold processElement resolveElement resolveStyle
  rw [hsty]
  simp [hmod]

/-- Witness for the amended claim C8: `style="fill:red;oops"` with
`red` not in the mapping still dies on the colon-free segment `oops`. -/
theorem c8_malformed_style_fatal_witness :
    processElement [] [(styleK,
      ['f', 'i', 'l', 'l', ':', 'r', 'e', 'd', ';', 'o', 'o', 'p', 's'])] = none := by
  apply c8_malformed_style_fatal _ _
    ['f', 'i', 'l', 'l', ':', 'r', 'e', 'd', ';', 'o', 'o', 'p', 's']
    ['o', 'o', 'p', 's']
  · decide
  · decide
  · decide
  · decide

/-! ## Attribute-map lemmas -/

theorem getAttr_cons (p : List Char × List Char) (rest : Element) (k : List Char) :
    getAttr (p :: rest) k = if p.1 = k then some p.2 else getAttr rest k := by
  unfold getAttr
  by_cases hp : p.1 = k
  · rw [List.find?_cons_of_pos _ (by simpa using hp), if_pos hp]
    rfl
  · rw [List.find?_cons_of_neg _ (by simpa using hp), if_neg hp]

theorem getAttr_setAttr_self (el : Element) (k v : List Char) :
    getAttr (setAttr el k v) k = some v := by
  induction el with
  | nil => simp [setAttr, getAttr_cons]
  | cons p rest ih =>
    unfold setAttr
    by_cases hp : p.1 = k
    · rw [if_pos hp, getAttr_cons]
      simp
    · rw [if_neg hp, getAttr_cons, if_neg hp]
      exact ih

theorem getAttr_setAttr_ne (el : Element) {k k' : List Char} (v : List Char) (h : k' ≠ k) :
    getAttr (setAttr el k v) k' = getAttr el k' := by
  induction el with
  | nil =>
    simp only [setAttr, getAttr_cons]
    rw [if_neg (fun e => h e.symm)]
  | cons p rest ih =>
    unfold setAttr
    by_cases hp : p.1 = k
    · rw [if_pos hp, getAttr_cons, getAttr_cons]
      rw [if_neg (fun e => h e.symm)]
      rw [if_neg (fun (e : p.1 = k') => h (e.symm.trans hp))]
    · rw [if_neg hp, getAttr_cons, getAttr_cons]
      by_cases hq : p.1 = k'
      · rw [if_pos hq, if_pos hq]
      · rw [if_neg hq, if_neg hq]
        exact ih

theorem getAttr_delAttr_ne (el : Element) {k k' : List Char} (h : k' ≠ k) :
    getAttr (delAttr el k) k' = getAttr el k' := by
  induction el with
  | nil => rfl
  | cons p rest ih =>
    unfold delAttr at ih ⊢
    rw [List.filter_cons]
    by_cases hp : p.1 = k
    · rw [if_neg (by simp [hp])]
      rw [getAttr_cons p rest k', if_neg (fun (e : p.1 = k') => h (e.symm.trans hp))]
      exact ih
    · rw [if_pos (by simp [hp])]
      rw [getAttr_cons, getAttr_cons]
      by_cases hq : p.1 = k'
      · rw [if_pos hq, if_pos hq]
      · rw [if_neg hq, if_neg hq]
        exact ih

theorem getAttr_ite (c : Prop) [Decidable c] (e1 e2 : Element) (k : List Char) :
    getAttr (if c then e1 else e2) k = if c then getAttr e1 k else getAttr e2 k := by
  split
  · rfl
  · rfl

theorem classify_getAttr_ne (cm : List (List Char × List Char)) (el1 : Element)
    (f s : PAttr) {k : List Char} (hk1 : k ≠ classK) (hk2 : k ≠ fillCs)
    (hk3 : k ≠ strokeCs) :
    getAttr (classifyElement cm el1 f s) k = getAttr el1 k := by
  unfold classifyElement
  cases hfl : attrLook cm f <;> cases hsl : attrLook cm s <;>
    simp only [getAttr_ite, getAttr_setAttr_ne _ _ hk1, getAttr_delAttr_ne _ hk2,
      getAttr_delAttr_ne _ hk3, ite_self]

theorem resolveElement_getAttr_ne {cm : List (List Char × List Char)} {el el1 : Element}
    {f s : PAttr} (h : resolveElement cm el = some (el1, f, s)) {k : List Char}
    (hk : k ≠ styleK) : getAttr el1 k = getAttr el k := by
  unfold resolveElement at h
  cases hr : resolveStyle cm el with
  | none => rw [hr] at h; cases h
  | some r =>
    rcases r with ⟨el1', f1, s1⟩
    rw [hr] at h
    simp only [Option.some.injEq, Prod.mk.injEq] at h
    obtain ⟨rfl, -, -⟩ := h
    unfold resolveStyle at hr
    cases hsty : getAttr el styleK with
    | none =>
      rw [hsty] at hr
      simp only [Option.some.injEq, Prod.mk.injEq] at hr
      obtain ⟨rfl, -, -⟩ := hr
      rfl
    | some sa =>
      rw [hsty] at hr
      cases hmod : modify_style_attribute cm sa with
      | none => simp only [hmod] at hr; cases hr
      | some r2 =>
        simp only [hmod, Option.some.injEq, Prod.mk.injEq] at hr
        obtain ⟨rfl, -, -⟩ := hr
        exact getAttr_setAttr_ne _ _ hk

/-- Claim C9: after the Rewriter runs on an element, if the element had
no pre-existing class attribute and its resolved fill and stroke
matched no colour-mapping key, no class attribute is written (never an
empty string); whereas an element whose style attribute became empty
after stripping the resolved declarations retains a style attribute set
to the empty string. -/
theorem c9_no_empty_class_and_style_kept (cm : List (List Char × List Char))
    (el el1 : Element) (f s : PAttr)
    (hres : resolveElement cm el = some (el1, f, s)) :
    processElement cm el = some (classifyElement cm el1 f s) ∧
    (getAttr el classK = none → attrLook cm f = none → attrLook cm s = none →
      getAttr (classifyElement cm el1 f s) classK = none) ∧
    (∀ sa f' s', getAttr el styleK = some sa →
      modify_style_attribute cm sa = some ([], f', s') →
      getAttr (classifyElement cm el1 f s) styleK = some []) := by
  refine ⟨?_, ?_, ?_⟩
  · simp [processElement, hres]
  · intro hcl hfl hsl
    have hcl1 : getAttr el1 classK = none := by
      rw [resolveElement_getAttr_ne hres (by decide), hcl]
    unfold classifyElement
    rw [hfl, hsl, hcl1]
    simp [hcl1]
  · intro sa f' s' hsty hmod
    have hel1 : el1 = setAttr el styleK [] := by
      unfold resolveElement resolveStyle at hres
      rw [hsty] at hres
      simp only [hmod, Option.some.injEq, Prod.mk.injEq] at hres
      exact hres.1.symm
    rw [classify_getAttr_ne cm el1 f s (by decide) (by decide) (by decide), hel1]
    exact getAttr_setAttr_self _ _ _

/-- Witness for claim C9 at a concrete element with a plain `fill`
attribute whose value is not in the (empty) mapping. -/
theorem c9_no_empty_class_and_style_kept_witness :
    processElement [] [(fillCs, ['b'])] =
        some (classifyElement [] [(fillCs, ['b'])] ⟨true, some ['b']⟩ ⟨false, none⟩) ∧
    (getAttr [(fillCs, ['b'])] classK = none →
      attrLook [] ⟨true, some ['b']⟩ = none → attrLook [] ⟨false, none⟩ = none →
      getAttr (classifyElement [] [(fillCs, ['b'])] ⟨true, some ['b']⟩ ⟨false, none⟩)
        classK = none) ∧
    (∀ sa f' s', getAttr [(fillCs, ['b'])] styleK = some sa →
      modify_style_attribute [] sa = some ([], f', s') →
      getAttr (classifyElement [] [(fillCs, ['b'])] ⟨true, some ['b']⟩ ⟨false, none⟩)
        styleK = some []) :=
  c9_no_empty_class_and_style_kept [] [(fillCs, ['b'])] [(fillCs, ['b'])]
    ⟨true, some ['b']⟩ ⟨false, none⟩ (by decide)

theorem mem_setAdd {l : List (List Char)} {x y : List Char} :
    y ∈ setAdd l x ↔ y ∈ l ∨ y = x := by
  unfold setAdd
  by_cases hx : x ∈ l
  · rw [if_pos hx]
    constructor
    · exact Or.inl
    · rintro (h | rfl)
      · exact h
      · exact hx
  · rw [if_neg hx]
    simp

theorem mem_foldl_setAdd {l : List (List Char)} :
    ∀ {init : List (List Char)} {y : List Char},
      (y ∈ l.foldl setAdd init ↔ y ∈ init ∨ y ∈ l) := by
  induction l with
  | nil => simp
  | cons x xs ih =>
    intro init y
    rw [List.foldl_cons, ih, mem_setAdd]
    simp only [List.mem_cons]
    tauto

theorem mem_setList {l : List (List Char)} {y : List Char} :
    y ∈ setList l ↔ y ∈ l := by
  unfold setList
  rw [mem_foldl_setAdd]
  simp

theorem head?_memChar {t : List Char} {c : Char} (h : t.head? = some c) : c ∈ t := by
  cases t with
  | nil => cases h
  | cons a as =>
    simp only [List.head?_cons, Option.some.injEq] at h
    subst h
    exact List.mem_cons_self a as

theorem getLast?_memChar {t : List Char} {c : Char} : t.getLast? = some c → c ∈ t := by
  induction t with
  | nil => intro h; cases h
  | cons a as ih =>
    intro h
    cases as with
    | nil =>
      simp only [List.getLast?_singleton, Option.some.injEq] at h
      subst h
      exact List.mem_cons_self a []
    | cons b bs =>
      rw [show (a :: b :: bs : List Char) = [a] ++ (b :: bs) from rfl,
        List.getLast?_append_of_ne_nil _ (by simp)] at h
      exact List.mem_cons_of_mem a (ih h)

theorem pyStrip_eq_self_ends {l : List Char}
    (h1 : ∀ c, l.head? = some c → isPySpace c = false)
    (h2 : ∀ c, l.getLast? = some c → isPySpace c = false) :
    pyStrip l = l := by
  unfold pyStrip
  have e1 : l.dropWhile isPySpace = l := by
    cases l with
    | nil => rfl
    | cons c cs =>
      rw [List.dropWhile_cons, h1 c rfl]
      simp
  rw [e1]
  have e2 : l.reverse.dropWhile isPySpace = l.reverse := by
    cases hr : l.reverse with
    | nil => rfl
    | cons c cs =>
      rw [List.dropWhile_cons, h2 c ?_]
      · simp
      · rw [← List.head?_reverse, hr]
        rfl
  rw [e2, List.reverse_reverse]

theorem pyStrip_wf {t : List Char} (h : WfTok t) : pyStrip t = t :=
  pyStrip_eq_self_ends (fun c hc => h.2 c (head?_memChar hc))
    (fun c hc => h.2 c (getLast?_memChar hc))

theorem joinSep_ne_nil {sep : Char} {l : List (List Char)} (hl : l ≠ [])
    (hwf : ∀ t ∈ l, t ≠ []) : joinSep sep l ≠ [] := by
  cases l with
  | nil => exact absurd rfl hl
  | cons t ts =>
    cases ts with
    | nil => exact hwf t (List.mem_cons_self t [])
    | cons t2 ts2 => simp [joinSep]

theorem joinSep_head_cases {sep : Char} {l : List (List Char)} {c : Char}
    (hwf : ∀ t ∈ l, t ≠ []) (h : (joinSep sep l).head? = some c) :
    ∃ t ∈ l, t.head? = some c := by
  cases l with
  | nil => cases h
  | cons t ts =>
    cases ts with
    | nil => exact ⟨t, List.mem_cons_self t [], h⟩
    | cons t2 ts2 =>
      refine ⟨t, List.mem_cons_self t _, ?_⟩
      cases ht : t with
      | nil => exact absurd ht (hwf t (List.mem_cons_self t _))
      | cons a as =>
        rw [show joinSep sep (t :: t2 :: ts2) = t ++ sep :: joinSep sep (t2 :: ts2) from rfl,
          ht] at h
        simpa using h

theorem joinSep_getLast_cases {sep : Char} {l : List (List Char)} {c : Char}
    (hwf : ∀ t ∈ l, t ≠ []) (h : (joinSep sep l).getLast? = some c) :
    ∃ t ∈ l, t.getLast? = some c := by
  induction l with
  | nil => cases h
  | cons t ts ih =>
    cases ts with
    | nil => exact ⟨t, List.mem_cons_self t [], h⟩
    | cons t2 ts2 =>
      have hwf2 : ∀ q ∈ t2 :: ts2, q ≠ [] := fun q hq => hwf q (List.mem_cons_of_mem _ hq)
      have hJ : joinSep sep (t2 :: ts2) ≠ [] := joinSep_ne_nil (by simp) hwf2
      rw [show joinSep sep (t :: t2 :: ts2) = t ++ sep :: joinSep sep (t2 :: ts2) from rfl,
        List.getLast?_append_of_ne_nil _ (by simp),
        show sep :: joinSep sep (t2 :: ts2) = [sep] ++ joinSep sep (t2 :: ts2) from rfl,
        List.getLast?_append_of_ne_nil _ hJ] at h
      obtain ⟨q, hq, hql⟩ := ih hwf2 h
      exact ⟨q, List.mem_cons_of_mem _ hq, hql⟩

theorem joinClasses_eq {l : List (List Char)} (hwf : ∀ t ∈ l, WfTok t) :
    joinClasses l = joinSep ' ' l := by
  unfold joinClasses
  apply pyStrip_eq_self_ends
  · intro c hc
    obtain ⟨t, ht, hth⟩ := joinSep_head_cases (fun q hq => (hwf q hq).1) hc
    exact (hwf t ht).2 c (head?_memChar hth)
  · intro c hc
    obtain ⟨t, ht, htl⟩ := joinSep_getLast_cases (fun q hq => (hwf q hq).1) hc
    exact (hwf t ht).2 c (getLast?_memChar htl)

theorem wfTok_no_space {t : List Char} (h : WfTok t) : ' ' ∉ t :=
  fun hm => absurd (h.2 ' ' hm) (by decide)

theorem mem_pyClassSet_joinClasses {l : List (List Char)} (hl : l ≠ [])
    (hwf : ∀ t ∈ l, WfTok t) {y : List Char} :
    y ∈ pyClassSet (joinClasses l) ↔ y ∈ l := by
  rw [joinClasses_eq hwf]
  unfold pyClassSet
  rw [splitOnChar_joinSep hl (fun t ht => wfTok_no_space (hwf t ht))]
  have hmap : l.map pyStrip = l := by
    have := List.map_congr_left (fun t ht => pyStrip_wf (hwf t ht))
    simpa using this
  rw [hmap]
  exact mem_setList

theorem classify_classK_eq (cm : List (List Char × List Char)) (el1 : Element)
    (f s : PAttr) :
    getAttr (classifyElement cm el1 f s) classK =
      if classesOf cm el1 f s ≠ [] then some (joinClasses (classesOf cm el1 f s))
      else getAttr el1 classK := by
  unfold classifyElement classesOf
  cases hfl : attrLook cm f <;> cases hsl : attrLook cm s <;>
    simp only [getAttr_ite, getAttr_setAttr_self,
      getAttr_delAttr_ne _ (show classK ≠ fillCs by decide),
      getAttr_delAttr_ne _ (show classK ≠ strokeCs by decide), ite_self]

theorem classify_classK_congr (cm : List (List Char × List Char)) (f s : PAttr)
    {elA elB : Element} (hcl : getAttr elA classK = getAttr elB classK) :
    getAttr (classifyElement cm elA f s) classK =
      getAttr (classifyElement cm elB f s) classK := by
  rw [classify_classK_eq, classify_classK_eq]
  have hC : classesOf cm elA f s = classesOf cm elB f s := by
    unfold classesOf
    rw [hcl]
  rw [hC, hcl]

theorem themeLookup_val_mem {d : List (List Char × List Char)} {k m : List Char}
    (h : themeLookup d k = some m) : ∃ q ∈ d, q.2 = m := by
  unfold themeLookup at h
  cases hf : d.find? (fun p => p.1 = k) with
  | none => rw [hf] at h; exact absurd h (by simp)
  | some q =>
    rw [hf] at h
    simp only [Option.map_some', Option.some.injEq] at h
    exact ⟨q, List.mem_of_find?_eq_some hf, h⟩

theorem attrLook_val {cm : List (List Char × List Char)} {a : PAttr} {m : List Char}
    (h : attrLook cm a = some m) : ∃ q ∈ cm, q.2 = m := by
  unfold attrLook at h
  by_cases hs : a.is_set
  · rw [if_pos hs] at h
    cases hv : a.value with
    | none => rw [hv] at h; exact absurd h (by simp)
    | some v =>
      rw [hv] at h
      exact themeLookup_val_mem h
  · rw [if_neg hs] at h
    exact absurd h (by simp)

theorem wfTok_classToken {pre m : List Char}
    (hpre : ∀ c ∈ pre, isPySpace c = false)
    (hm : ∀ c ∈ m, isPySpace c = false) : WfTok (pre ++ '-' :: m) := by
  constructor
  · simp
  · intro c hc
    rw [List.mem_append, List.mem_cons] at hc
    rcases hc with h | h | h
    · exact hpre c h
    · rw [h]; decide
    · exact hm c h

theorem classesOf_wf {cm : List (List Char × List Char)} {el1 : Element} {f s : PAttr}
    (hca : ∀ ca, getAttr el1 classK = some ca → ∀ t ∈ splitOnChar ' ' ca, WfTok t)
    (hcm : ∀ q ∈ cm, ∀ c ∈ q.2, isPySpace c = false) :
    ∀ t ∈ classesOf cm el1 f s, WfTok t := by
  have hcls0 : ∀ t ∈ (match getAttr el1 classK with
      | none => ([] : List (List Char)) | some c => pyClassSet c), WfTok t := by
    cases hcl : getAttr el1 classK with
    | none => simp
    | some ca =>
      intro t ht
      simp only at ht
      unfold pyClassSet at ht
      rw [mem_setList, List.mem_map] at ht
      obtain ⟨p, hp, hpe⟩ := ht
      rw [← hpe, pyStrip_wf (hca ca hcl p hp)]
      exact hca ca hcl p hp
  have hc1 : ∀ t ∈ (match attrLook cm f with
      | some m => setAdd (match getAttr el1 classK with
          | none => ([] : List (List Char)) | some c => pyClassSet c) (fillCs ++ '-' :: m)
      | none => (match getAttr el1 classK with
          | none => ([] : List (List Char)) | some c => pyClassSet c)), WfTok t := by
    cases hfl : attrLook cm f with
    | none => simpa using hcls0
    | some m =>
      intro t ht
      simp only at ht
      rw [mem_setAdd] at ht
      rcases ht with ht | ht
      · exact hcls0 t ht
      · obtain ⟨q, hq, hqe⟩ := attrLook_val hfl
        rw [ht]
        exact wfTok_classToken (by decide) (hqe ▸ hcm q hq)
  intro t ht
  unfold classesOf at ht
  simp only at ht
  revert ht
  cases hsl : attrLook cm s with
  | none => exact fun ht => hc1 t (by simpa using ht)
  | some m =>
    intro ht
    simp only at ht
    rw [mem_setAdd] at ht
    rcases ht with ht | ht
    · exact hc1 t ht
    · obtain ⟨q, hq, hqe⟩ := attrLook_val hsl
      rw [ht]
      exact wfTok_classToken (by decide) (hqe ▸ hcm q hq)

theorem resolveElement_of_style {cm : List (List Char × List Char)} {el : Element}
    {sa ns : List Char} {f1 st1 : PAttr}
    (hsty : getAttr el styleK = some sa)
    (hmod : modify_style_attribute cm sa = some (ns, f1, st1)) :
    resolveElement cm el = some (setAttr el styleK ns,
      (if (getAttr el fillCs).isSome ∧ f1.is_set = false then
        ({ is_set := true, value := getAttr el fillCs } : PAttr) else f1),
      (if (getAttr el strokeCs).isSome ∧ st1.is_set = false then
        ({ is_set := true, value := getAttr el strokeCs } : PAttr) else st1)) := by
  unfold resolveElement resolveStyle
  rw [hsty]
  simp only [hmod, getAttr_setAttr_ne _ _ (show fillCs ≠ styleK by decide),
    getAttr_setAttr_ne _ _ (show strokeCs ≠ styleK by decide)]

theorem mem_classesOf_fill {cm : List (List Char × List Char)} {el1 : Element}
    {f s : PAttr} {m : List Char} (hfl : attrLook cm f = some m) :
    (fillCs ++ '-' :: m) ∈ classesOf cm el1 f s := by
  unfold classesOf
  simp only
  rw [hfl]
  cases hsl : attrLook cm s with
  | none => exact mem_setAdd.mpr (Or.inr rfl)
  | some m2 => exact mem_setAdd.mpr (Or.inl (mem_setAdd.mpr (Or.inr rfl)))

theorem mem_classesOf_stroke {cm : List (List Char × List Char)} {el1 : Element}
    {f s : PAttr} {m : List Char} (hsl : attrLook cm s = some m) :
    (strokeCs ++ '-' :: m) ∈ classesOf cm el1 f s := by
  unfold classesOf
  simp only
  rw [hsl]
  exact mem_setAdd.mpr (Or.inr rfl)

theorem classify_mem_out {cm : List (List Char × List Char)} {el1 : Element}
    {f s : PAttr} {tok : List Char} (htok : tok ∈ classesOf cm el1 f s)
    (hca : ∀ ca, getAttr el1 classK = some ca → ∀ t ∈ splitOnChar ' ' ca, WfTok t)
    (hcm : ∀ q ∈ cm, ∀ c ∈ q.2, isPySpace c = false) :
    ∃ ca, getAttr (classifyElement cm el1 f s) classK = some ca ∧ tok ∈ pyClassSet ca := by
  have hne : classesOf cm el1 f s ≠ [] := List.ne_nil_of_mem htok
  refine ⟨joinClasses (classesOf cm el1 f s), ?_, ?_⟩
  · rw [classify_classK_eq, if_pos hne]
  · exact (mem_pyClassSet_joinClasses hne (classesOf_wf hca hcm)).mpr htok

theorem attrLook_of_set {cm : List (List Char × List Char)} {a : PAttr}
    {v m : List Char} (hset : a.is_set = true) (hv : a.value = some v)
    (hm : themeLookup cm v = some m) : attrLook cm a = some m := by
  unfold attrLook
  rw [if_pos hset, hv]
  exact hm

/-- Claim C4: on an element whose `style` attribute carries a
`fill:`/`stroke:` declaration resolving through the colour mapping, the
style declaration takes precedence over the plain `fill`/`stroke`
attribute: the class attribute the Rewriter writes does not depend on
the plain attribute value at all, and the class derived from the style
value is in the written class set (stated for fill and, symmetrically,
for stroke). -/
theorem c4_style_declaration_precedence (cm : List (List Char × List Char))
    (el : Element) (sa ns : List Char) (f1 st1 : PAttr)
    (hsty : getAttr el styleK = some sa)
    (hmod : modify_style_attribute cm sa = some (ns, f1, st1))
    (hca : ∀ ca, getAttr el classK = some ca → ∀ t ∈ splitOnChar ' ' ca, WfTok t)
    (hcm : ∀ q ∈ cm, ∀ c ∈ q.2, isPySpace c = false) :
    (f1.is_set = true →
      (∀ v2, (processElement cm (setAttr el fillCs v2)).map (fun e => getAttr e classK) =
        (processElement cm el).map (fun e => getAttr e classK)) ∧
      (∀ v1 m, f1.value = some v1 → themeLookup cm v1 = some m →
        ∃ el2 ca, processElement cm el = some el2 ∧ getAttr el2 classK = some ca ∧
          (fillCs ++ '-' :: m) ∈ pyClassSet ca)) ∧
    (st1.is_set = true →
      (∀ w2, (processElement cm (setAttr el strokeCs w2)).map (fun e => getAttr e classK) =
        (processElement cm el).map (fun e => getAttr e classK)) ∧
      (∀ v1 m, st1.value = some v1 → themeLookup cm v1 = some m →
        ∃ el2 ca, processElement cm el = some el2 ∧ getAttr el2 classK = some ca ∧
          (strokeCs ++ '-' :: m) ∈ pyClassSet ca)) := by
  have hres := resolveElement_of_style hsty hmod
  constructor
  · intro hf
    rw [if_neg (show ¬((getAttr el fillCs).isSome ∧ f1.is_set = false) by
      simp [hf])] at hres
    constructor
    · intro v2
      have hsty2 : getAttr (setAttr el fillCs v2) styleK = some sa := by
        rw [getAttr_setAttr_ne _ _ (show styleK ≠ fillCs by decide)]
        exact hsty
      have hres2 := resolveElement_of_style hsty2 hmod
      rw [if_neg (show ¬((getAttr (setAttr el fillCs v2) fillCs).isSome ∧
          f1.is_set = false) by simp [hf])] at hres2
      rw [getAttr_setAttr_ne _ _ (show strokeCs ≠ fillCs by decide)] at hres2
      unfold processElement
      rw [hres, hres2]
      simp only [Option.map_some', Option.some.injEq]
      apply classify_classK_congr
      rw [getAttr_setAttr_ne _ _ (show classK ≠ styleK by decide),
        getAttr_setAttr_ne _ _ (show classK ≠ fillCs by decide),
        getAttr_setAttr_ne _ _ (show classK ≠ styleK by decide)]
    · intro v1 m hv1 hm
      have hpe : processElement cm el = some (classifyElement cm (setAttr el styleK ns) f1
          (if (getAttr el strokeCs).isSome ∧ st1.is_set = false then
            ({ is_set := true, value := getAttr el strokeCs } : PAttr) else st1)) := by
        unfold processElement
        rw [hres]
        rfl
      have hfl : attrLook cm f1 = some m := attrLook_of_set hf hv1 hm
      have hca1 : ∀ ca, getAttr (setAttr el styleK ns) classK = some ca →
          ∀ t ∈ splitOnChar ' ' ca, WfTok t := by
        rw [getAttr_setAttr_ne _ _ (show classK ≠ styleK by decide)]
        exact hca
      have htok := @mem_classesOf_fill cm (setAttr el styleK ns) f1
          (if (getAttr el strokeCs).isSome ∧ st1.is_set = false then
            ({ is_set := true, value := getAttr el strokeCs } : PAttr) else st1) m hfl
      obtain ⟨ca, hk, hmem⟩ := classify_mem_out htok hca1 hcm
      exact ⟨_, ca, hpe, hk, hmem⟩
  · intro hs
    rw [if_neg (show ¬((getAttr el strokeCs).isSome ∧ st1.is_set = false) by
      simp [hs])] at hres
    constructor
    · intro w2
      have hsty2 : getAttr (setAttr el strokeCs w2) styleK = some sa := by
        rw [getAttr_setAttr_ne _ _ (show styleK ≠ strokeCs by decide)]
        exact hsty
      have hres2 := resolveElement_of_style hsty2 hmod
      rw [if_neg (show ¬((getAttr (setAttr el strokeCs w2) strokeCs).isSome ∧
          st1.is_set = false) by simp [hs])] at hres2
      rw [getAttr_setAttr_ne _ _ (show fillCs ≠ strokeCs by decide)] at hres2
      unfold processElement
      rw [hres, hres2]
      simp only [Option.map_some', Option.some.injEq]
      apply classify_classK_congr
      rw [getAttr_setAttr_ne _ _ (show classK ≠ styleK by decide),
        getAttr_setAttr_ne _ _ (show classK ≠ strokeCs by decide),
        getAttr_setAttr_ne _ _ (show classK ≠ styleK by decide)]
    · intro v1 m hv1 hm
      have hpe : processElement cm el = some (classifyElement cm (setAttr el styleK ns)
          (if (getAttr el fillCs).isSome ∧ f1.is_set = false then
            ({ is_set := true, value := getAttr el fillCs } : PAttr) else f1) st1) := by
        unfold processElement
        rw [hres]
        rfl
      have hsl : attrLook cm st1 = some m := attrLook_of_set hs hv1 hm
      have hca1 : ∀ ca, getAttr (setAttr el styleK ns) classK = some ca →
          ∀ t ∈ splitOnChar ' ' ca, WfTok t := by
        rw [getAttr_setAttr_ne _ _ (show classK ≠ styleK by decide)]
        exact hca
      have htok := @mem_classesOf_stroke cm (setAttr el styleK ns)
          (if (getAttr el fillCs).isSome ∧ f1.is_set = false then
            ({ is_set := true, value := getAttr el fillCs } : PAttr) else f1) st1 m hsl
      obtain ⟨ca, hk, hmem⟩ := classify_mem_out htok hca1 hcm
      exact ⟨_, ca, hpe, hk, hmem⟩

/-- Witness for C4: `style="fill:#ff0000"` beats `fill="#00ff00"`; the
class outcome ignores the plain attribute value and contains
`fill-red`. -/
theorem c4_style_declaration_precedence_witness :
    (processElement [(("#ff0000").toList, ("red").toList)]
        (setAttr [(styleK, ("fill:#ff0000").toList), (fillCs, ("#00ff00").toList)]
          fillCs (("#0000ff").toList))).map (fun e => getAttr e classK) =
      (processElement [(("#ff0000").toList, ("red").toList)]
        [(styleK, ("fill:#ff0000").toList), (fillCs, ("#00ff00").toList)]).map
        (fun e => getAttr e classK) ∧
    (∃ el2 ca, processElement [(("#ff0000").toList, ("red").toList)]
        [(styleK, ("fill:#ff0000").toList), (fillCs, ("#00ff00").toList)] = some el2 ∧
      getAttr el2 classK = some ca ∧
      (fillCs ++ '-' :: ("red").toList) ∈ pyClassSet ca) := by
  have h := c4_style_declaration_precedence
      [(("#ff0000").toList, ("red").toList)]
      [(styleK, ("fill:#ff0000").toList), (fillCs, ("#00ff00").toList)]
      (("fill:#ff0000").toList) []
      { is_set := true, value := some (("#ff0000").toList) } {}
      (by decide) (by decide)
      (by
        intro ca hc
        rw [show getAttr [(styleK, ("fill:#ff0000").toList),
            (fillCs, ("#00ff00").toList)] classK = none from by decide] at hc
        exact Option.noConfusion hc)
      (by decide)
  obtain ⟨ha, hb⟩ := h.1 rfl
  exact ⟨ha (("#0000ff").toList),
    hb (("#ff0000").toList) (("red").toList) rfl (by decide)⟩

theorem foldlM_const {α β : Type} (f : β → α → Option β) (b : β) :
    ∀ l : List α, (∀ a ∈ l, f b a = some b) → l.foldlM f b = some b := by
  intro l
  induction l with
  | nil => intro _; rfl
  | cons a as ih =>
    intro h
    rw [List.foldlM_cons, h a (List.mem_cons_self a as)]
    simpa using ih (fun x hx => h x (List.mem_cons_of_mem _ hx))

/-- Claim C10: an element whose style contains marker references but
which has no class attribute is skipped entirely by the marker
propagator: the tree is returned unchanged and no error is raised even
when a referenced id matches no element of the tree. -/
theorem c10_no_class_skips_marker_refs (force_fill : Bool) (tree : List Element)
    (i : Nat) (hcls : getAttr (tree.getD i []) classK = none) :
    elementMarkerStep force_fill tree i = some tree := by
  unfold elementMarkerStep
  cases hsty : getAttr (tree.getD i []) styleK with
  | none => rfl
  | some sty =>
    apply foldlM_const
    intro piece _
    unfold processDecl
    cases hm : markerDeclParse (pyStrip piece) with
    | none => rfl
    | some mid => rw [hcls]

/-- Witness for C10: a dangling `marker-end:url(#m1)` on a classless
element is skipped without error. -/
theorem c10_no_class_skips_marker_refs_witness :
    elementMarkerStep false [[], [(styleK, ("marker-end:url(#m1)").toList)]] 1 =
      some [[], [(styleK, ("marker-end:url(#m1)").toList)]] := by
  apply c10_no_class_skips_marker_refs
  decide

theorem getD_set_self {l : List Element} {i : Nat} (x : Element) (h : i < l.length) :
    (l.set i x).getD i [] = x := by
  rw [List.getD_eq_getElem?_getD, List.getElem?_set_self h]
  rfl

theorem getD_set_ne (l : List Element) {i j : Nat} (x : Element) (h : i ≠ j) :
    (l.set i x).getD j [] = l.getD j [] := by
  rw [List.getD_eq_getElem?_getD, List.getElem?_set_ne h, ← List.getD_eq_getElem?_getD]

theorem findIdAux_lt {element_id : List Char} :
    ∀ {l : List Element} {k idx : Nat}, findIdAux element_id l k = some idx →
      idx < k + l.length := by
  intro l
  induction l with
  | nil => intro k idx h; exact absurd h (by simp [findIdAux])
  | cons e es ih =>
    intro k idx h
    unfold findIdAux at h
    by_cases he : getAttr e idK = some element_id
    · rw [if_pos he] at h
      injection h with h
      subst h
      simp
    · rw [if_neg he] at h
      have := ih h
      simp only [List.length_cons]
      omega

theorem find_element_with_id_lt {tree : List Element} {mid : List Char} {idx : Nat}
    (h : find_element_with_id tree mid = some idx) : idx < tree.length := by
  unfold find_element_with_id at h
  cases tree with
  | nil => exact absurd h (by simp)
  | cons r rest =>
    have := findIdAux_lt h
    simp only [List.length_cons]
    omega

theorem minv_refl (t0 : List Element) : MInv t0 t0 :=
  ⟨rfl, fun _ => ⟨rfl, rfl, fun h => h⟩⟩

theorem minv_trans {t0 t1 t2 : List Element} (h1 : MInv t0 t1) (h2 : MInv t1 t2) :
    MInv t0 t2 := by
  refine ⟨h2.1.trans h1.1, fun j => ?_⟩
  obtain ⟨a1, b1, c1⟩ := h1.2 j
  obtain ⟨a2, b2, c2⟩ := h2.2 j
  exact ⟨a2.trans a1, b2.trans b1, fun h => c2 (c1 h)⟩

theorem minv_set_class {t : List Element} {idx : Nat} (v : List Char)
    (hidx : idx < t.length) :
    MInv t (t.set idx (setAttr (t.getD idx []) classK v)) := by
  refine ⟨List.length_set t idx _, fun j => ?_⟩
  by_cases hj : idx = j
  · subst hj
    rw [getD_set_self _ hidx]
    refine ⟨getAttr_setAttr_ne _ _ (by decide), getAttr_setAttr_ne _ _ (by decide), ?_⟩
    intro _
    rw [getAttr_setAttr_self]
    rfl
  · rw [getD_set_ne _ _ hj]
    exact ⟨rfl, rfl, fun h => h⟩

theorem processDecl_minv {force_fill : Bool} {t t' : List Element} {i : Nat}
    {piece : List Char} (h : processDecl force_fill t i piece = some t') :
    MInv t t' := by
  unfold processDecl at h
  split at h
  · injection h with h
    subst h
    exact minv_refl t
  · split at h
    · injection h with h
      subst h
      exact minv_refl t
    · split at h
      · exact absurd h (by simp)
      · rename_i idx hfind
        dsimp only at h
        split at h
        · exact absurd h (by simp)
        · split at h
          · injection h with h
            subst h
            exact minv_set_class _ (find_element_with_id_lt hfind)
          · injection h with h
            subst h
            exact minv_refl t

theorem findIdAux_congr {element_id : List Char} :
    ∀ (l l2 : List Element), l.length = l2.length →
    (∀ j, getAttr (l.getD j []) idK = getAttr (l2.getD j []) idK) →
    ∀ k, findIdAux element_id l k = findIdAux element_id l2 k := by
  intro l
  induction l with
  | nil =>
    intro l2 hl _ k
    cases l2 with
    | nil => rfl
    | cons b bs => simp at hl
  | cons a as ih =>
    intro l2 hl hp k
    cases l2 with
    | nil => simp at hl
    | cons b bs =>
      have h0 := hp 0
      simp only [List.getD_cons_zero] at h0
      unfold findIdAux
      rw [h0]
      by_cases hb : getAttr b idK = some element_id
      · rw [if_pos hb, if_pos hb]
      · rw [if_neg hb, if_neg hb]
        exact ih bs (by simpa using hl)
          (fun j => by simpa [List.getD_cons_succ] using hp (j + 1)) (k + 1)

theorem find_element_with_id_minv {t0 t : List Element} (h : MInv t0 t)
    (mid : List Char) :
    find_element_with_id t mid = find_element_with_id t0 mid := by
  unfold find_element_with_id
  cases t0 with
  | nil =>
    cases t with
    | nil => rfl
    | cons a as => exact absurd h.1 (by simp)
  | cons r0 rest0 =>
    cases t with
    | nil => exact absurd h.1 (by simp)
    | cons r rest =>
      apply findIdAux_congr
      · simpa using h.1
      · intro j
        simpa [List.getD_cons_succ] using (h.2 (j + 1)).1

theorem foldlM_inv_pres {α β : Type} (f : β → α → Option β) (Inv : β → Prop)
    (hstep : ∀ b a b2, Inv b → f b a = some b2 → Inv b2) :
    ∀ (l : List α) (b b2 : β), Inv b → l.foldlM f b = some b2 → Inv b2 := by
  intro l
  induction l with
  | nil =>
    intro b b2 hb h
    injection h with h
    subst h
    exact hb
  | cons a as ih =>
    intro b b2 hb h
    rw [List.foldlM_cons] at h
    cases hfa : f b a with
    | none => rw [hfa] at h; exact absurd h (by simp)
    | some b1 =>
      rw [hfa] at h
      exact ih b1 b2 (hstep b a b1 hb hfa) (by simpa using h)

theorem foldlM_inv_none {α β : Type} (f : β → α → Option β) (Inv : β → Prop)
    (abad : α) (hstep : ∀ b a b2, Inv b → f b a = some b2 → Inv b2)
    (hbad : ∀ b, Inv b → f b abad = none) :
    ∀ (l : List α) (b : β), Inv b → abad ∈ l → l.foldlM f b = none := by
  intro l
  induction l with
  | nil => intro b _ hm; exact absurd hm (List.not_mem_nil _)
  | cons a as ih =>
    intro b hb hm
    rw [List.foldlM_cons]
    by_cases ha : a = abad
    · subst ha
      rw [hbad b hb]
      rfl
    · cases hfa : f b a with
      | none => rfl
      | some b1 =>
        have hm2 : abad ∈ as := by
          rcases List.mem_cons.mp hm with h | h
          · exact absurd h.symm ha
          · exact h
        simpa using ih b1 (hstep b a b1 hb hfa) hm2

theorem elementMarkerStep_minv {force_fill : Bool} {t0 t t' : List Element} {i : Nat}
    (hb : MInv t0 t) (h : elementMarkerStep force_fill t i = some t') : MInv t0 t' := by
  unfold elementMarkerStep at h
  cases hsty : getAttr (t.getD i []) styleK with
  | none =>
    rw [hsty] at h
    injection h with h
    subst h
    exact hb
  | some sty =>
    rw [hsty] at h
    exact foldlM_inv_pres _ (MInv t0)
      (fun b a b2 hbb hf => minv_trans hbb (processDecl_minv hf)) _ t t' hb h

theorem elementMarkerStep_bad {force_fill : Bool} {t0 : List Element} {i : Nat}
    {sty piece mid cls : List Char}
    (hsty0 : getAttr (t0.getD i []) styleK = some sty)
    (hpiece : piece ∈ splitOnChar ';' sty)
    (hm : markerDeclParse (pyStrip piece) = some mid)
    (hcls0 : getAttr (t0.getD i []) classK = some cls)
    (hfind0 : find_element_with_id t0 mid = none) :
    ∀ t, MInv t0 t → elementMarkerStep force_fill t i = none := by
  intro t ht
  unfold elementMarkerStep
  have hsty : getAttr (t.getD i []) styleK = some sty := by
    rw [(ht.2 i).2.1, hsty0]
  rw [hsty]
  refine foldlM_inv_none _ (MInv t0) piece
    (fun b a b2 hbb hf => minv_trans hbb (processDecl_minv hf)) ?_ _ t ht hpiece
  intro b hbb
  have hcs : (getAttr (b.getD i []) classK).isSome = true :=
    (hbb.2 i).2.2 (by rw [hcls0]; rfl)
  obtain ⟨cls2, hcls2⟩ := Option.isSome_iff_exists.mp hcs
  have hfind : find_element_with_id b mid = none := by
    rw [find_element_with_id_minv hbb, hfind0]
  unfold processDecl
  simp only [hm, hcls2, hfind]

/-- Claim C7: an element with a class attribute whose style carries a
marker reference to an id matching no element of the tree makes the
whole marker pass fail fatally (the `None` returned by the lookup is
dereferenced); the reference is neither skipped nor does the pass
complete normally. -/
theorem c7_dangling_marker_reference_fatal (force_fill : Bool) (tree : List Element)
    (i : Nat) (sty piece mid cls : List Char) (hi : i < tree.length)
    (hsty : getAttr (tree.getD i []) styleK = some sty)
    (hpiece : piece ∈ splitOnChar ';' sty)
    (hm : markerDeclParse (pyStrip piece) = some mid)
    (hcls : getAttr (tree.getD i []) classK = some cls)
    (hfind : find_element_with_id tree mid = none) :
    deal_with_markers tree force_fill = none := by
  unfold deal_with_markers
  exact foldlM_inv_none (fun tr j => elementMarkerStep force_fill tr j) (MInv tree) i
    (fun b a b2 hbb hf => elementMarkerStep_minv hbb hf)
    (elementMarkerStep_bad hsty hpiece hm hcls hfind)
    _ tree (minv_refl tree) (List.mem_range.mpr hi)

/-- Witness for C7: `marker-end:url(#m1)` with no element of id `m1`
crashes the marker pass. -/
theorem c7_dangling_marker_reference_fatal_witness :
    deal_with_markers
      [[], [(styleK, ("marker-end:url(#m1)").toList), (classK, ("fill-red").toList)]]
      false = none := by
  apply c7_dangling_marker_reference_fatal false _ 1
    (("marker-end:url(#m1)").toList) (("marker-end:url(#m1)").toList)
    (("m1").toList) (("fill-red").toList)
  · decide
  · decide
  · decide
  · decide
  · decide
  · decide

theorem mem_of_mem_splitOnChar {sep : Char} :
    ∀ {l t : List Char} {c : Char}, t ∈ splitOnChar sep l → c ∈ t → c ∈ l := by
  intro l
  induction l with
  | nil =>
    intro t c ht hc
    simp [splitOnChar] at ht
    subst ht
    exact absurd hc (List.not_mem_nil c)
  | cons a cs ih =>
    intro t c ht hc
    unfold splitOnChar at ht
    cases hs : splitOnChar sep cs with
    | nil => exact absurd hs (splitOnChar_ne_nil cs)
    | cons r rs =>
      simp only [hs] at ht
      by_cases ha : a = sep
      · rw [if_pos ha] at ht
        rcases List.mem_cons.mp ht with rfl | ht2
        · exact absurd hc (List.not_mem_nil c)
        · exact List.mem_cons_of_mem a (ih (by rw [hs]; exact ht2) hc)
      · rw [if_neg ha] at ht
        rcases List.mem_cons.mp ht with rfl | ht2
        · rcases List.mem_cons.mp hc with rfl | hc2
          · exact List.mem_cons_self c cs
          · exact List.mem_cons_of_mem a
              (ih (by rw [hs]; exact List.mem_cons_self r rs) hc2)
        · exact List.mem_cons_of_mem a
            (ih (by rw [hs]; exact List.mem_cons_of_mem r ht2) hc)

theorem contributed_wf {cls : List Char}
    (h : ∀ t ∈ splitOnChar ' ' cls, ∀ c ∈ t, isPySpace c = false) :
    ∀ t ∈ contributedClasses cls, WfTok t := by
  intro t ht
  unfold contributedClasses at ht
  obtain ⟨hmem, hpref⟩ := List.mem_filter.mp ht
  refine ⟨?_, h t hmem⟩
  intro hnil
  subst hnil
  simp [fillCs, strokeCs, List.isPrefixOf] at hpref

theorem markerClassSetAt_wf {tree : List Element} {idx : Nat}
    (h : ∀ mc, getAttr (tree.getD idx []) classK = some mc →
      ∀ t ∈ splitOnChar ' ' mc, WfTok t) :
    ∀ y ∈ markerClassSetAt tree idx, WfTok y := by
  intro y hy
  unfold markerClassSetAt at hy
  revert hy
  cases hmc : getAttr (tree.getD idx []) classK with
  | none =>
    intro hy
    simp at hy
  | some mc =>
    intro hy
    simp only at hy
    unfold pyClassSet at hy
    rw [mem_setList, List.mem_map] at hy
    obtain ⟨p, hp, hpe⟩ := hy
    rw [← hpe, pyStrip_wf (h mc hmc p hp)]
    exact h mc hmc p hp

/-- Claim C5: a marker declaration on a classed element with a found
target makes the pass write onto the target the set union of the
target's pre-existing class tokens and the referencing element's
fill- or stroke-prefixed tokens, and no element's class set loses a
token (accumulation without removal); well-formedness of the class
strings (nonblank, whitespace-free tokens) makes the written string
read back as exactly that union. -/
theorem c5_marker_class_union (tree : List Element) (i : Nat)
    (piece mid cls : List Char) (idx : Nat)
    (hm : markerDeclParse (pyStrip piece) = some mid)
    (hcls : getAttr (tree.getD i []) classK = some cls)
    (hfind : find_element_with_id tree mid = some idx)
    (hclswf : ∀ t ∈ splitOnChar ' ' cls, ∀ c ∈ t, isPySpace c = false)
    (htgtwf : ∀ mc, getAttr (tree.getD idx []) classK = some mc →
      ∀ t ∈ splitOnChar ' ' mc, WfTok t) :
    ∃ tree2, processDecl false tree i piece = some tree2 ∧
      (∀ y, y ∈ markerClassSetAt tree2 idx ↔
        y ∈ markerClassSetAt tree idx ∨ y ∈ contributedClasses cls) ∧
      (∀ j y, y ∈ markerClassSetAt tree j → y ∈ markerClassSetAt tree2 j) := by
  have hpd : processDecl false tree i piece =
      (if (contributedClasses cls).foldl setAdd (markerClassSetAt tree idx) ≠ [] then
        some (tree.set idx (setAttr (tree.getD idx []) classK
          (joinClasses ((contributedClasses cls).foldl setAdd (markerClassSetAt tree idx)))))
      else some tree) := by
    unfold processDecl
    simp only [hm, hcls, hfind]
    rw [if_neg (show ¬(false = true ∧ contributedClasses cls ≠ []) by simp)]
  have hwf1 : ∀ y ∈ (contributedClasses cls).foldl setAdd (markerClassSetAt tree idx),
      WfTok y := by
    intro y hy
    rcases mem_foldl_setAdd.mp hy with hy | hy
    · exact markerClassSetAt_wf htgtwf y hy
    · exact contributed_wf hclswf y hy
  by_cases hne : (contributedClasses cls).foldl setAdd (markerClassSetAt tree idx) ≠ []
  · rw [if_pos hne] at hpd
    have hlt : idx < tree.length := find_element_with_id_lt hfind
    refine ⟨_, hpd, ?_, ?_⟩
    · intro y
      have hset : markerClassSetAt (tree.set idx (setAttr (tree.getD idx []) classK
          (joinClasses ((contributedClasses cls).foldl setAdd (markerClassSetAt tree idx)))))
          idx = pyClassSet (joinClasses
            ((contributedClasses cls).foldl setAdd (markerClassSetAt tree idx))) := by
        unfold markerClassSetAt
        rw [getD_set_self _ hlt, getAttr_setAttr_self]
      rw [hset, mem_pyClassSet_joinClasses hne hwf1, mem_foldl_setAdd]
    · intro j y hy
      by_cases hj : idx = j
      · subst hj
        have hset : markerClassSetAt (tree.set idx (setAttr (tree.getD idx []) classK
            (joinClasses ((contributedClasses cls).foldl setAdd (markerClassSetAt tree idx)))))
            idx = pyClassSet (joinClasses
              ((contributedClasses cls).foldl setAdd (markerClassSetAt tree idx))) := by
          unfold markerClassSetAt
          rw [getD_set_self _ hlt, getAttr_setAttr_self]
        rw [hset, mem_pyClassSet_joinClasses hne hwf1, mem_foldl_setAdd]
        exact Or.inl hy
      · have hset : markerClassSetAt (tree.set idx (setAttr (tree.getD idx []) classK
            (joinClasses ((contributedClasses cls).foldl setAdd (markerClassSetAt tree idx)))))
            j = markerClassSetAt tree j := by
          unfold markerClassSetAt
          rw [getD_set_ne _ _ hj]
        rw [hset]
        exact hy
  · rw [if_neg hne] at hpd
    rw [not_ne_iff] at hne
    refine ⟨tree, hpd, ?_, fun j y hy => hy⟩
    intro y
    constructor
    · intro hy
      exact Or.inl hy
    · intro hy
      have : y ∈ (contributedClasses cls).foldl setAdd (markerClassSetAt tree idx) :=
        mem_foldl_setAdd.mpr hy
      rw [hne] at this
      exact absurd this (List.not_mem_nil y)

/-- Witness for C5: `class="fill-red"` with `marker-end:url(#m1)` and a
target `m1` carrying `class="stroke-blue"`: the target ends with the
set union of both tokens. -/
theorem c5_marker_class_union_witness :
    ∃ tree2, processDecl false
      [[], [(styleK, ("marker-end:url(#m1)").toList), (classK, ("fill-red").toList)],
       [(idK, ("m1").toList), (classK, ("stroke-blue").toList)]] 1
      (("marker-end:url(#m1)").toList) = some tree2 ∧
      (("fill-red").toList ∈ markerClassSetAt tree2 2 ∧
       ("stroke-blue").toList ∈ markerClassSetAt tree2 2) := by
  obtain ⟨tree2, hpd, hiff, hmono⟩ := c5_marker_class_union
    [[], [(styleK, ("marker-end:url(#m1)").toList), (classK, ("fill-red").toList)],
     [(idK, ("m1").toList), (classK, ("stroke-blue").toList)]] 1
    (("marker-end:url(#m1)").toList) (("m1").toList) (("fill-red").toList) 2
    (by decide) (by decide) (by decide) (by decide)
    (by
      intro mc hmc
      have h2 : some (("stroke-blue").toList) = some mc := hmc
      injection h2 with h
      subst h
      simp only [WfTok]
      decide)
  exact ⟨tree2, hpd, (hiff (("fill-red").toList)).mpr (Or.inr (by decide)),
    (hiff (("stroke-blue").toList)).mpr (Or.inl (by decide))⟩

/-- Counterexample to C6: with `force_fill`, an element contributing
only `stroke-dark-blue` makes the marker gain `fill-dark` (the second
`-`-separated segment), not `fill-dark-blue` (the text after the first
`-`) as claimed. -/
theorem c6_not_text_after_first_dash :
    deal_with_markers
      [[], [(styleK, ("marker-end:url(#m1)").toList),
        (classK, ("stroke-dark-blue").toList)], [(idK, ("m1").toList)]] true =
    some [[], [(styleK, ("marker-end:url(#m1)").toList),
        (classK, ("stroke-dark-blue").toList)],
      [(idK, ("m1").toList), (classK, ("stroke-dark-blue fill-dark").toList)]] ∧
    ¬ (("fill-dark-blue").toList ∈
        pyClassSet (("stroke-dark-blue fill-dark").toList)) ∧
    (("fill-dark").toList ∈ pyClassSet (("stroke-dark-blue fill-dark").toList)) := by
  decide

/-- Claim C6, amended: when `force_fill` is enabled and the element
contributes at least one class token whose text contains a `-`, the
marker additionally gains `fill-<name>` where `<name>` is the second
`-`-separated segment of the first contributed token (the text between
the first and second `-`); a first token without `-` instead crashes
with an `IndexError`. -/
theorem c6_force_fill_adds_second_segment (tree : List Element) (i : Nat)
    (piece mid cls : List Char) (idx : Nat)
    (tok0 : List Char) (rest : List (List Char))
    (seg0 color : List Char) (rest2 : List (List Char))
    (hm : markerDeclParse (pyStrip piece) = some mid)
    (hcls : getAttr (tree.getD i []) classK = some cls)
    (hfind : find_element_with_id tree mid = some idx)
    (hclswf : ∀ t ∈ splitOnChar ' ' cls, ∀ c ∈ t, isPySpace c = false)
    (htgtwf : ∀ mc, getAttr (tree.getD idx []) classK = some mc →
      ∀ t ∈ splitOnChar ' ' mc, WfTok t)
    (hcontrib : contributedClasses cls = tok0 :: rest)
    (hsplit : splitOnChar '-' tok0 = seg0 :: color :: rest2) :
    ∃ tree2, processDecl true tree i piece = some tree2 ∧
      (fillCs ++ '-' :: color) ∈ markerClassSetAt tree2 idx := by
  have hpd : processDecl true tree i piece =
      some (tree.set idx (setAttr (tree.getD idx []) classK (joinClasses
        (setAdd ((contributedClasses cls).foldl setAdd (markerClassSetAt tree idx))
          (fillCs ++ '-' :: color))))) := by
    unfold processDecl
    simp only [hm, hcls, hfind, hcontrib, List.headD_cons, hsplit]
    rw [if_pos (show True ∧ tok0 :: rest ≠ [] from
      ⟨trivial, List.cons_ne_nil tok0 rest⟩)]
    dsimp only
    rw [if_pos (List.ne_nil_of_mem (mem_setAdd.mpr (Or.inr rfl)))]
  have hwfcolor : ∀ c ∈ color, isPySpace c = false := by
    intro c hc
    have htok0 : tok0 ∈ contributedClasses cls := by
      rw [hcontrib]
      exact List.mem_cons_self tok0 rest
    have htok0s : tok0 ∈ splitOnChar ' ' cls :=
      List.mem_of_mem_filter htok0
    have hcolmem : color ∈ splitOnChar '-' tok0 := by
      rw [hsplit]
      exact List.mem_cons_of_mem seg0 (List.mem_cons_self color rest2)
    exact hclswf tok0 htok0s c (mem_of_mem_splitOnChar hcolmem hc)
  have hwf1 : ∀ y ∈ setAdd ((contributedClasses cls).foldl setAdd
      (markerClassSetAt tree idx)) (fillCs ++ '-' :: color), WfTok y := by
    intro y hy
    rcases mem_setAdd.mp hy with hy | rfl
    · rcases mem_foldl_setAdd.mp hy with hy | hy
      · exact markerClassSetAt_wf htgtwf y hy
      · exact contributed_wf hclswf y hy
    · exact wfTok_classToken (by decide) hwfcolor
  have hne : setAdd ((contributedClasses cls).foldl setAdd
      (markerClassSetAt tree idx)) (fillCs ++ '-' :: color) ≠ [] :=
    List.ne_nil_of_mem (mem_setAdd.mpr (Or.inr rfl))
  refine ⟨_, hpd, ?_⟩
  have hset : markerClassSetAt (tree.set idx (setAttr (tree.getD idx []) classK
      (joinClasses (setAdd ((contributedClasses cls).foldl setAdd
        (markerClassSetAt tree idx)) (fillCs ++ '-' :: color))))) idx =
      pyClassSet (joinClasses (setAdd ((contributedClasses cls).foldl setAdd
        (markerClassSetAt tree idx)) (fillCs ++ '-' :: color))) := by
    unfold markerClassSetAt
    rw [getD_set_self _ (find_element_with_id_lt hfind), getAttr_setAttr_self]
  rw [hset, mem_pyClassSet_joinClasses hne hwf1]
  exact mem_setAdd.mpr (Or.inr rfl)

/-- Witness for the amended C6: contributing only `stroke-dark-blue`
under `force_fill` makes the marker gain `fill-dark`. -/
theorem c6_force_fill_adds_second_segment_witness :
    ∃ tree2, processDecl true
      [[], [(styleK, ("marker-end:url(#m1)").toList),
        (classK, ("stroke-dark-blue").toList)], [(idK, ("m1").toList)]] 1
      (("marker-end:url(#m1)").toList) = some tree2 ∧
      (fillCs ++ '-' :: ("dark").toList) ∈ markerClassSetAt tree2 2 :=
  c6_force_fill_adds_second_segment
    [[], [(styleK, ("marker-end:url(#m1)").toList),
      (classK, ("stroke-dark-blue").toList)], [(idK, ("m1").toList)]] 1
    (("marker-end:url(#m1)").toList) (("m1").toList)
    (("stroke-dark-blue").toList) 2
    (("stroke-dark-blue").toList) [] (("stroke").toList) (("dark").toList)
    [("blue").toList]
    (by decide) (by decide) (by decide) (by decide)
    (fun mc hmc =>
      Option.noConfusion (show (none : Option (List Char)) = some mc from hmc))
    (by decide) (by decide)
